import Mathlib

/-!
# libtorrent: `disk_interface.hpp` and `chunk_string`

A shallow embedding of `storage_holder`, the move-only handle that ties the
registration of a torrent's storage to one owner, of the flag enumerations
declared next to it (`file_open_mode`, `disk_interface::flags_t`), and of
`chunk_string` from `simulation/test_http_connection.cpp`.

Objects live in a heap addressed by object identity, so that member functions
taking a reference (`storage_holder&& rhs`) read and write the referenced object
statement by statement, exactly as the C++ does, aliasing included.  Calls made
through the `disk_interface*` are appended to a log.  The registry that receives
those calls is declared pure virtual in the header; it is modelled from the
specification.
-/

namespace libtorrent

/-! ## Data model -/

/-- The index naming one torrent's storage inside a disk_interface. -/
abbrev storage_index_t := Nat

/-- The identity (address) of a `disk_interface` object. -/
abbrev disk_ptr := Nat

/-- The registry member functions of `disk_interface` (lines 134-137). -/
inductive disk_call where
  | new_torrent
  | remove_torrent (idx : storage_index_t)
  | get_torrent (idx : storage_index_t)
  deriving DecidableEq, Repr

/-- The data members of `storage_holder` with their default member initialisers:
`disk_interface* m_disk_io = nullptr; storage_index_t m_idx{0};`. -/
structure storage_holder where
  m_disk_io : Option disk_ptr := none
  m_idx : storage_index_t := 0
  deriving DecidableEq, Repr

/-- The program state: the holder objects (an object's identity is its position,
`none` marks an object whose lifetime has ended) and the calls received by
dispatchers so far, oldest first. -/
structure world where
  heap : List (Option storage_holder) := []
  log : List (disk_ptr × disk_call) := []
  deriving DecidableEq, Repr

/-- The object with identity `p`, when it is alive. -/
def world.obj (w : world) (p : Nat) : Option storage_holder :=
  (w.heap[p]?).join

/-- Overwrite the live object `p`. -/
def world.store (w : world) (p : Nat) (h : storage_holder) : world :=
  { w with heap := w.heap.set p (some h) }

/-- Allocate a new object; its identity is the next free position. -/
def world.alloc (w : world) (h : storage_holder) : world :=
  { w with heap := w.heap ++ [some h] }

/-- End the lifetime of object `p`. -/
def world.free (w : world) (p : Nat) : world :=
  { w with heap := w.heap.set p none }

/-- A virtual call `d->c`. -/
def world.call (w : world) (d : disk_ptr) (c : disk_call) : world :=
  { w with log := w.log ++ [(d, c)] }

/-- The statement `if (m_disk_io) m_disk_io->remove_torrent(m_idx);` executed on
the object `this`. -/
def remove_if_active (this : Nat) (w : world) : Option world :=
  match w.obj this with
  | none => none
  | some h =>
    match h.m_disk_io with
    | some d => some (w.call d (disk_call.remove_torrent h.m_idx))
    | none => some w

/-- The calls made by `if (m_disk_io) m_disk_io->remove_torrent(m_idx);` on a
holder with the given members. -/
def removal_of (h : storage_holder) : List (disk_ptr × disk_call) :=
  match h.m_disk_io with
  | some d => [(d, disk_call.remove_torrent h.m_idx)]
  | none => []

/-- The assignment `p->m_disk_io = v`. -/
def set_disk_io (p : Nat) (v : Option disk_ptr) (w : world) : Option world :=
  match w.obj p with
  | none => none
  | some h => some (w.store p { h with m_disk_io := v })

/-- The assignment `p->m_idx = v`. -/
def set_idx (p : Nat) (v : storage_index_t) (w : world) : Option world :=
  match w.obj p with
  | none => none
  | some h => some (w.store p { h with m_idx := v })

/-! ## Member functions of `storage_holder` -/

/-- `storage_holder() = default;` -/
def default_ctor (w : world) : world :=
  w.alloc {}

/-- `storage_holder(storage_index_t idx, disk_interface& disk_io)
  : m_disk_io(&disk_io), m_idx(idx) {}` -/
def ctor (idx : storage_index_t) (disk_io : disk_ptr) (w : world) : world :=
  w.alloc { m_disk_io := some disk_io, m_idx := idx }

/-- `~storage_holder() { if (m_disk_io) m_disk_io->remove_torrent(m_idx); }`,
after which the object is gone. -/
def dtor (this : Nat) (w : world) : Option world :=
  (remove_if_active this w).map (fun w1 => w1.free this)

/-- `explicit operator bool() const { return m_disk_io != nullptr; }` -/
def storage_holder.operator_bool (h : storage_holder) : Bool :=
  h.m_disk_io.isSome

/-- The outcome of a failed `TORRENT_ASSERT`. -/
inductive assertion_failure where
  | failed
  deriving DecidableEq, Repr

/-- `TORRENT_ASSERT(cond)`. The header defining the macro is not among the sources;
the build switch `TORRENT_USE_ASSERTS` that this header tests at line 179 is taken
as a parameter: with the switch on the condition is checked, with it off the macro
expands to nothing. -/
def TORRENT_ASSERT (TORRENT_USE_ASSERTS : Bool) (cond : Bool) :
    Except assertion_failure Unit :=
  if TORRENT_USE_ASSERTS && !cond then Except.error assertion_failure.failed
  else Except.ok ()

/-- `operator storage_index_t() const { TORRENT_ASSERT(m_disk_io); return m_idx; }` -/
def storage_holder.operator_storage_index_t (TORRENT_USE_ASSERTS : Bool)
    (h : storage_holder) : Except assertion_failure storage_index_t :=
  match TORRENT_ASSERT TORRENT_USE_ASSERTS h.m_disk_io.isSome with
  | Except.error e => Except.error e
  | Except.ok _ => Except.ok h.m_idx

/-- `void reset() { if (m_disk_io) m_disk_io->remove_torrent(m_idx);
  m_disk_io = nullptr; }` -/
def reset (this : Nat) (w : world) : Option world :=
  (remove_if_active this w).bind (set_disk_io this none)

/-- `storage_holder(storage_holder&& rhs) : m_disk_io(rhs.m_disk_io),
  m_idx(rhs.m_idx) { rhs.m_disk_io = nullptr; }`; the object under construction
is new, hence never `rhs` itself. -/
def move_ctor (rhs : Nat) (w : world) : Option world :=
  match w.obj rhs with
  | none => none
  | some r =>
    set_disk_io rhs none (w.alloc { m_disk_io := r.m_disk_io, m_idx := r.m_idx })

/-- `storage_holder& operator=(storage_holder&& rhs)`, statement by statement:
```
if (m_disk_io) m_disk_io->remove_torrent(m_idx);
m_disk_io = rhs.m_disk_io;
m_idx = rhs.m_idx;
rhs.m_disk_io = nullptr;
```
`this` and `rhs` may name the same object. -/
def move_assign (this rhs : Nat) (w : world) : Option world :=
  (remove_if_active this w).bind fun w1 =>
  (w1.obj rhs).bind fun r1 =>
  (set_disk_io this r1.m_disk_io w1).bind fun w2 =>
  (w2.obj rhs).bind fun r2 =>
  (set_idx this r2.m_idx w2).bind fun w3 =>
  set_disk_io rhs none w3

/-- Call `reset` on the object `this` `n` times in a row. -/
def reset_times (this : Nat) : Nat → world → Option world
  | 0, w => some w
  | n + 1, w => (reset this w).bind (reset_times this n)

/-! ## Sequences of operations on holder objects -/

/-- One operation of a client on holder objects.  A constructor creates a new
object (its identity is the next free position of the heap); the other operations
name the objects they act on. -/
inductive holder_op where
  | construct (idx : storage_index_t) (disk_io : disk_ptr)
  | default_construct
  | move_construct (rhs : Nat)
  | move_assign (this rhs : Nat)
  | reset (this : Nat)
  | destroy (this : Nat)
  deriving DecidableEq, Repr

/-- Whether the operation names the object `p` as `this` or as `rhs`. -/
def holder_op.mentions (p : Nat) : holder_op → Bool
  | holder_op.construct _ _ => false
  | holder_op.default_construct => false
  | holder_op.move_construct rhs => decide (rhs = p)
  | holder_op.move_assign this rhs => decide (this = p) || decide (rhs = p)
  | holder_op.reset this => decide (this = p)
  | holder_op.destroy this => decide (this = p)

/-- Execute one operation; `none` when it names an object that is not alive. -/
def step (o : holder_op) (w : world) : Option world :=
  match o with
  | holder_op.construct idx d => some (ctor idx d w)
  | holder_op.default_construct => some (default_ctor w)
  | holder_op.move_construct rhs => move_ctor rhs w
  | holder_op.move_assign this rhs => move_assign this rhs w
  | holder_op.reset this => reset this w
  | holder_op.destroy this => dtor this w

/-- Execute a sequence of operations from left to right. -/
def run : List holder_op → world → Option world
  | [], w => some w
  | o :: os, w => (step o w).bind (run os)

/-- The (dispatcher, index) pair an object wraps when it is an active holder. -/
def token_of (o : Option storage_holder) : Option (disk_ptr × storage_index_t) :=
  match o with
  | none => none
  | some h =>
    match h.m_disk_io with
    | none => none
    | some d => some (d, h.m_idx)

/-- The pairs wrapped by the active holders that are alive, one entry per holder. -/
def active_tokens (w : world) : List (disk_ptr × storage_index_t) :=
  w.heap.filterMap token_of

/-- How many live active holders wrap index `idx` of dispatcher `d`. -/
def num_active (w : world) (d : disk_ptr) (idx : storage_index_t) : Nat :=
  (active_tokens w).countP fun t => decide (t = (d, idx))

/-- The `remove_torrent` calls of a log, as (dispatcher, index) pairs. -/
def remove_calls (log : List (disk_ptr × disk_call)) : List (disk_ptr × storage_index_t) :=
  log.filterMap fun e =>
    match e.2 with
    | disk_call.remove_torrent idx => some (e.1, idx)
    | _ => none

/-- The indices of the `remove_torrent` calls received by dispatcher `d`. -/
def removed_from (d : disk_ptr) (log : List (disk_ptr × disk_call)) : List storage_index_t :=
  ((remove_calls log).filter fun e => e.1 = d).map Prod.snd

/-- The (dispatcher, index) pairs passed to the two-argument constructor. -/
def activations (ops : List holder_op) : List (disk_ptr × storage_index_t) :=
  ops.filterMap fun o =>
    match o with
    | holder_op.construct idx d => some (d, idx)
    | _ => none

/-- The indices passed together with dispatcher `d` to the two-argument constructor. -/
def activated_with (d : disk_ptr) (ops : List holder_op) : List storage_index_t :=
  ((activations ops).filter fun e => e.1 = d).map Prod.snd

/-- No holder object is alive any more. -/
def all_destroyed (w : world) : Prop :=
  ∀ o ∈ w.heap, o = none

instance (w : world) : Decidable (all_destroyed w) := by
  unfold all_destroyed; infer_instance

/-- Every two-argument construction of the sequence, at the moment it is executed,
uses a (dispatcher, index) pair that no live active holder wraps. -/
def fresh_constructs : List holder_op → world → Bool
  | [], _ => true
  | o :: os, w =>
    (match o with
      | holder_op.construct idx d => decide (num_active w d idx = 0)
      | _ => true) &&
    (match step o w with
      | some w1 => fresh_constructs os w1
      | none => true)

/-! ## Flag enumerations -/

/-- The complement `~x` of a 32-bit word. -/
def bit_not (x : Nat) : Nat := 2 ^ 32 - 1 - x % 2 ^ 32

namespace file_open_mode

/-- `read_only = 0` -/
def read_only : Nat := 0
/-- `write_only = 1` -/
def write_only : Nat := 1
/-- `read_write = 2` -/
def read_write : Nat := 2
/-- `rw_mask = read_only | write_only | read_write` -/
def rw_mask : Nat := read_only ||| write_only ||| read_write
/-- `sparse = 0x4` -/
def sparse : Nat := 0x4
/-- `no_atime = 0x8` -/
def no_atime : Nat := 0x8
/-- `random_access = 0x10` -/
def random_access : Nat := 0x10
/-- `locked = 0x20` -/
def locked : Nat := 0x20

/-- The three read/write modes. -/
def modes : List Nat := [read_only, write_only, read_write]

/-- The word obtained by or-ing together the chosen auxiliary flags. -/
def aux_bits (s n r l : Bool) : Nat :=
  (if s then sparse else 0) ||| (if n then no_atime else 0) |||
  (if r then random_access else 0) ||| (if l then locked else 0)

end file_open_mode

namespace flags_t

/-- `sequential_access = 0x1` -/
def sequential_access : Nat := 0x1
/-- `cache_hit = 0x2` -/
def cache_hit : Nat := 0x2
/-- `volatile_read = 0x10` -/
def volatile_read : Nat := 0x10

/-- The enumerators of `disk_interface::flags_t`. -/
def all : List Nat := [sequential_access, cache_hit, volatile_read]

end flags_t

/-! ## `chunk_string` (simulation/test_http_connection.cpp) -/

/-- A `std::string`: a sequence of bytes, each written as a `Char`. -/
abbrev std_string := List Char

/-- The bytes `snprintf(header, sizeof(header), "%x\r\n", int(i))` writes: `int(i)`
keeps the low 32 bits of the `size_t`, `%x` prints them as an unsigned number
in lowercase hexadecimal without leading zeros; the result (at most ten bytes)
always fits the 50-byte buffer. -/
def chunk_header (i : Nat) : std_string :=
  Nat.toDigits 16 (i % 2 ^ 32) ++ ['\r', '\n']

/-- The literal `"0\r\n\r\n"` appended after the loop. -/
def last_chunk : std_string := ['0', '\r', '\n', '\r', '\n']

/-- The loop of `chunk_string`, with the local variables `i`, `s` and `ret` as
arguments and a bound on the number of evaluations of the loop condition
(`none` when the bound is used up before the loop has ended):
```
while (!s.empty())
{
  i = std::min(i, s.size());
  std::snprintf(header, sizeof(header), "%x\r\n", int(i));
  ret += header;
  ret += s.substr(0, i);
  s.erase(s.begin(), s.begin() + i);
  i *= 2;
}
ret += "0\r\n\r\n";
return ret;
```
`i` is a `size_t`, taken to be 64 bits wide, so the doubling is modulo `2 ^ 64`. -/
def chunk_loop : Nat → Nat → std_string → std_string → Option std_string
  | 0, _, _, _ => none
  | fuel + 1, i, s, ret =>
    if s.isEmpty then some (ret ++ last_chunk)
    else
      let i1 := min i s.length
      let ret1 := ret ++ chunk_header i1
      let ret2 := ret1 ++ s.take i1
      let s1 := s.drop i1
      let i2 := (i1 * 2) % 2 ^ 64
      chunk_loop fuel i2 s1 ret2

/-- `std::string chunk_string(std::string s)`: `size_t i = 10; std::string ret;`
followed by the loop. -/
def chunk_string (fuel : Nat) (s : std_string) : Option std_string :=
  chunk_loop fuel 10 s []

/-- One block as `chunk_string` writes it: the header for the number of data
bytes, then the data bytes. -/
def block (c : std_string) : std_string :=
  chunk_header c.length ++ c

/-- The blocks for the given pieces of data, one after the other, and the closing
`"0\r\n\r\n"`. -/
def frame : List std_string → std_string
  | [] => last_chunk
  | c :: cs => block c ++ frame cs

/-- Cut a string into consecutive pieces of the given sizes. -/
def cut : List Nat → std_string → List std_string
  | [], _ => []
  | n :: ns, s => s.take n :: cut ns (s.drop n)

/-- The doubling schedule: with `rem` bytes not yet emitted, chunk number `k`
carries `min (10 * 2 ^ k) rem` bytes, and the schedule ends when nothing is left
(`f` bounds the number of chunks). -/
def schedule : Nat → Nat → Nat → List Nat
  | 0, _, _ => []
  | f + 1, k, rem =>
    if rem = 0 then []
    else min (10 * 2 ^ k) rem :: schedule f (k + 1) (rem - min (10 * 2 ^ k) rem)

/-- The chunk sizes of the doubling schedule for a string of `n` bytes. -/
def chunk_sizes (n : Nat) : List Nat :=
  schedule n 0 n

/-- The value of a lowercase hexadecimal digit. -/
def hex_val (c : Char) : Option Nat :=
  if 48 ≤ c.toNat ∧ c.toNat ≤ 57 then some (c.toNat - 48)
  else if 97 ≤ c.toNat ∧ c.toNat ≤ 102 then some (c.toNat - 87)
  else none

/-- Read lowercase hexadecimal digits as long as there are any; the result is the
number read (continuing from `acc`) and the rest of the input. -/
def read_hex : std_string → Nat → Nat × std_string
  | [], acc => (acc, [])
  | c :: t, acc =>
    match hex_val c with
    | some v => read_hex t (acc * 16 + v)
    | none => (acc, c :: t)

/-- A decoder for the format in which every block is a lowercase hexadecimal
length `n > 0`, `"\r\n"` and exactly `n` data bytes, and the end is
`"0\r\n\r\n"`; it returns the data of the blocks in order (`fuel` bounds the
number of lengths read). -/
def decode_blocks : Nat → std_string → Option (List std_string)
  | 0, _ => none
  | fuel + 1, inp =>
    match inp.head?.bind hex_val with
    | none => none
    | some _ =>
      let n := (read_hex inp 0).1
      let rest := (read_hex inp 0).2
      if rest.take 2 = ['\r', '\n'] then
        let body := rest.drop 2
        if n = 0 then (if body = ['\r', '\n'] then some [] else none)
        else if body.length < n then none
        else (decode_blocks fuel (body.drop n)).map fun bs => body.take n :: bs
      else none

/-- Decode a whole string; its length bounds the number of blocks. -/
def decode_chunked (inp : std_string) : Option (List std_string) :=
  decode_blocks inp.length inp

/-- An HTTP/1.1 chunked body for the given chunks: for each chunk its size in
hexadecimal, CRLF, the chunk data and a CRLF closing the data; then the last
chunk `"0"` CRLF and the final CRLF. -/
def http_chunked : List std_string → std_string
  | [] => ['0', '\r', '\n', '\r', '\n']
  | c :: cs => Nat.toDigits 16 c.length ++ ['\r', '\n'] ++ c ++ ['\r', '\n'] ++ http_chunked cs

/-- A decoder for HTTP/1.1 chunked bodies: like `decode_blocks`, but the data of
every chunk must be closed by a CRLF. -/
def decode_http_chunked : Nat → std_string → Option (List std_string)
  | 0, _ => none
  | fuel + 1, inp =>
    match inp.head?.bind hex_val with
    | none => none
    | some _ =>
      let n := (read_hex inp 0).1
      let rest := (read_hex inp 0).2
      if rest.take 2 = ['\r', '\n'] then
        let body := rest.drop 2
        if n = 0 then (if body = ['\r', '\n'] then some [] else none)
        else if body.length < n then none
        else if (body.drop n).take 2 = ['\r', '\n'] then
          (decode_http_chunked fuel (body.drop (n + 2))).map fun bs => body.take n :: bs
        else none
      else none

/-! ## The storage registry behind `disk_interface` -/

/-- Modelled from the spec: a Storage Record, the backend state of one registered
torrent (`storage_interface` is only forward-declared in the header).  It is
opaque; `serial` tells the records of different registrations apart. -/
structure storage_interface where
  serial : Nat
  deriving DecidableEq, Repr

/-- Modelled from the spec: the choice of the StorageIndex a registration gets (the
allocating code is missing).  The spec leaves the choice open, so it is a
parameter: the index `new_torrent` issues after the dispatcher has received the
given calls. -/
abbrev index_policy := List disk_call → storage_index_t

/-- Modelled from the spec: the Storage Registry behind the pure virtual
`new_torrent`, `remove_torrent` and `get_torrent`, whose implementation is not
among the sources: it "owns the mapping from an opaque index to a Storage Record"
and is the "sole mutator of that mapping"; `received` is the calls received so
far, oldest first. -/
structure registry where
  received : List disk_call := []
  torrents : storage_index_t → Option storage_interface := fun _ => none

/-- Modelled from the spec: `new_torrent`, the registration call (implementation
missing), which creates a Storage Record and allocates a StorageIndex for it; the
result is the index and the new registry. -/
def registry.new_torrent (policy : index_policy) (r : registry) :
    storage_index_t × registry :=
  (policy r.received,
    { received := r.received ++ [disk_call.new_torrent],
      torrents := fun j =>
        if j = policy r.received then some ⟨r.received.length⟩ else r.torrents j })

/-- Modelled from the spec: `remove_torrent` (implementation missing),
`remove(index)`, after which the index is no longer registered. -/
def registry.remove_torrent (r : registry) (idx : storage_index_t) : registry :=
  { received := r.received ++ [disk_call.remove_torrent idx],
    torrents := fun j => if j = idx then none else r.torrents j }

/-- Modelled from the spec: `get_torrent` (implementation missing),
`lookup(index) -> Storage Record reference, or absent`. -/
def registry.get_torrent (r : registry) (idx : storage_index_t) : Option storage_interface :=
  r.torrents idx

/-- Modelled from the spec: the registry of a dispatcher after it has received one
more call (the implementation of the three member functions is missing). -/
def registry.receive (policy : index_policy) (r : registry) (c : disk_call) : registry :=
  match c with
  | disk_call.new_torrent => (r.new_torrent policy).2
  | disk_call.remove_torrent idx => r.remove_torrent idx
  | disk_call.get_torrent idx =>
    { r with received := r.received ++ [disk_call.get_torrent idx] }

/-- Modelled from the spec: the registry of a dispatcher that has received the given
calls, oldest first, starting with nothing registered (the implementation of the
dispatcher is missing). -/
def registry.after (policy : index_policy) (calls : List disk_call) : registry :=
  calls.foldl (registry.receive policy) {}

/-- Modelled from the spec: what the spec asks of the allocation (the allocating
code is missing), "indices are unique among currently-registered items": the index
a registration gets is not registered at that moment. -/
def fresh_policy (policy : index_policy) : Prop :=
  ∀ calls, (registry.after policy calls).get_torrent (policy calls) = none

/-- Modelled from the spec: an allocation that never issues an index twice (the
allocating code is missing): the number of registrations so far. -/
def counter_policy : index_policy :=
  fun calls => calls.countP fun c => decide (c = disk_call.new_torrent)

/-- One past the largest index of a list, 0 for the empty list. -/
def end_index (l : List storage_index_t) : storage_index_t :=
  l.foldr (fun x m => max (x + 1) m) 0

/-- Modelled from the spec: the indices registered after the given calls when every
registration gets the index one past the largest registered one (the allocating
code is missing). -/
def registered_after (calls : List disk_call) : List storage_index_t :=
  calls.foldl
    (fun l c =>
      match c with
      | disk_call.new_torrent => end_index l :: l
      | disk_call.remove_torrent idx => l.filter fun j => decide (j ≠ idx)
      | disk_call.get_torrent _ => l)
    []

/-- Modelled from the spec: an allocation that issues a removed index again (the
allocating code is missing): one past the largest index registered at the moment. -/
def end_index_policy : index_policy :=
  fun calls => end_index (registered_after calls)

/-- The calls of a log that went to dispatcher `d`, oldest first. -/
def calls_on (d : disk_ptr) (log : List (disk_ptr × disk_call)) : List disk_call :=
  (log.filter fun e => e.1 = d).map Prod.snd

/-- Modelled from the spec: `new_torrent` seen from the client, `register(constructor,
params) -> OwnershipToken` (only the declaration, returning a `storage_holder`, is
in the header): dispatcher `d` receives the call and hands out a holder wrapping
the index it issued. -/
def disk_new_torrent (policy : index_policy) (d : disk_ptr) (w : world) : world :=
  ctor (policy (calls_on d w.log)) d (w.call d disk_call.new_torrent)

/-! ## Basic facts about the heap -/

theorem obj_lt {w : world} {p : Nat} {h : storage_holder} (hp : w.obj p = some h) :
    p < w.heap.length := by
  unfold world.obj at hp
  by_contra hlt
  rw [List.getElem?_eq_none (Nat.le_of_not_lt hlt)] at hp
  simp at hp

theorem obj_eq_some_iff {w : world} {p : Nat} {h : storage_holder} :
    w.obj p = some h ↔ w.heap[p]? = some (some h) := by
  unfold world.obj
  cases hq : w.heap[p]? with
  | none => simp
  | some o => cases o <;> simp

theorem obj_alloc_new (w : world) (h : storage_holder) :
    (w.alloc h).obj w.heap.length = some h := by
  simp [world.obj, world.alloc]

theorem obj_alloc_old {w : world} {p : Nat} {x : storage_holder} (h : storage_holder)
    (hp : w.obj p = some x) : (w.alloc h).obj p = some x := by
  have hlt := obj_lt hp
  rw [obj_eq_some_iff] at hp ⊢
  simp only [world.alloc]
  rw [List.getElem?_append_left hlt]
  exact hp

theorem obj_store_same {w : world} {p : Nat} {x : storage_holder} (h : storage_holder)
    (hp : w.obj p = some x) : (w.store p h).obj p = some h := by
  have hlt := obj_lt hp
  simp [world.obj, world.store, hlt]

theorem obj_store_other (w : world) {p q : Nat} (h : storage_holder) (hpq : q ≠ p) :
    (w.store q h).obj p = w.obj p := by
  simp [world.obj, world.store, List.getElem?_set_ne hpq]

theorem obj_free_same (w : world) (p : Nat) : (w.free p).obj p = none := by
  unfold world.obj world.free
  by_cases hlt : p < w.heap.length
  · simp [hlt]
  · rw [List.getElem?_eq_none (by simpa using hlt)]
    rfl

theorem obj_free_other (w : world) {p q : Nat} (hpq : q ≠ p) :
    (w.free q).obj p = w.obj p := by
  simp [world.obj, world.free, List.getElem?_set_ne hpq]

theorem store_self {w : world} {p : Nat} {h : storage_holder} (hp : w.obj p = some h) :
    w.store p h = w := by
  have hlt := obj_lt hp
  rw [obj_eq_some_iff] at hp
  have hget : w.heap[p] = some h := by
    have := List.getElem?_eq_getElem hlt
    rw [this] at hp
    exact Option.some.inj hp
  cases w with
  | mk heap log =>
    simp only [world.store, world.mk.injEq, and_true]
    apply List.ext_getElem?
    intro i
    by_cases hi : p = i
    · subst hi
      simp [hlt, hp]
    · rw [List.getElem?_set_ne hi]

/-- What `remove_if_active` does on an active holder. -/
theorem remove_if_active_active {w : world} {p : Nat} {d : disk_ptr} {idx : storage_index_t}
    (hp : w.obj p = some ⟨some d, idx⟩) :
    remove_if_active p w = some (w.call d (disk_call.remove_torrent idx)) := by
  simp [remove_if_active, hp]

/-- What `remove_if_active` does on an empty holder. -/
theorem remove_if_active_empty {w : world} {p : Nat} {idx : storage_index_t}
    (hp : w.obj p = some ⟨none, idx⟩) : remove_if_active p w = some w := by
  simp [remove_if_active, hp]

/-- The statement `if (m_disk_io) m_disk_io->remove_torrent(m_idx);` only extends
the log, by the calls of `removal_of`. -/
theorem remove_if_active_eq {w : world} {p : Nat} {h : storage_holder}
    (hp : w.obj p = some h) :
    remove_if_active p w = some { w with log := w.log ++ removal_of h } := by
  obtain ⟨dio, idx⟩ := h
  cases dio with
  | none => simp [remove_if_active, hp, removal_of]
  | some d => simp [remove_if_active, hp, removal_of, world.call]

theorem obj_with_log (w : world) (l : List (disk_ptr × disk_call)) (p : Nat) :
    ({ w with log := l } : world).obj p = w.obj p := rfl

theorem store_store (w : world) (p : Nat) (x y : storage_holder) :
    (w.store p x).store p y = w.store p y := by
  simp [world.store]

theorem obj_call (w : world) (d : disk_ptr) (c : disk_call) (p : Nat) :
    (w.call d c).obj p = w.obj p := rfl

/-- The effect of `reset` on an active holder. -/
theorem reset_active {w : world} {p : Nat} {d : disk_ptr} {idx : storage_index_t}
    (hp : w.obj p = some ⟨some d, idx⟩) :
    reset p w = some ((w.call d (disk_call.remove_torrent idx)).store p ⟨none, idx⟩) := by
  simp [reset, remove_if_active_active hp, set_disk_io, obj_call, hp]

/-- The effect of `reset` on an empty holder. -/
theorem reset_empty {w : world} {p : Nat} {idx : storage_index_t}
    (hp : w.obj p = some ⟨none, idx⟩) : reset p w = some w := by
  simp [reset, remove_if_active_empty hp, set_disk_io, hp, store_self hp]

/-- Any number of calls of `reset` on an empty holder leave the state as it is. -/
theorem reset_times_empty {w : world} {p : Nat} {idx : storage_index_t}
    (hp : w.obj p = some ⟨none, idx⟩) (n : Nat) : reset_times p n w = some w := by
  induction n with
  | zero => rfl
  | succ n ih => simp [reset_times, reset_empty hp, ih]

/-- Destroying an active holder `(idx, d)` logs the one call `d.remove_torrent(idx)`. -/
theorem dtor_active {v : world} {p : Nat} {d : disk_ptr} {idx : storage_index_t}
    (hp : v.obj p = some ⟨some d, idx⟩) :
    dtor p v = some ((v.call d (disk_call.remove_torrent idx)).free p) := by
  simp [dtor, remove_if_active_active hp]

/-- The closed form of `reset`. -/
theorem reset_eq {w : world} {p : Nat} {a : storage_holder} (ha : w.obj p = some a) :
    reset p w = some
      (({ w with log := w.log ++ removal_of a } : world).store p ⟨none, a.m_idx⟩) := by
  have h0 : ({ w with log := w.log ++ removal_of a } : world).obj p = some a := ha
  simp only [reset, remove_if_active_eq ha, Option.some_bind, set_disk_io, h0]

/-- The closed form of the destructor. -/
theorem dtor_eq {w : world} {p : Nat} {a : storage_holder} (ha : w.obj p = some a) :
    dtor p w = some (({ w with log := w.log ++ removal_of a } : world).free p) := by
  simp only [dtor, remove_if_active_eq ha, Option.map_some']

/-- The closed form of the move constructor. -/
theorem move_ctor_eq {w : world} {rhs : Nat} {r : storage_holder}
    (hr : w.obj rhs = some r) :
    move_ctor rhs w = some
      ((w.alloc ⟨r.m_disk_io, r.m_idx⟩).store rhs ⟨none, r.m_idx⟩) := by
  have h1 : (w.alloc ⟨r.m_disk_io, r.m_idx⟩).obj rhs = some r := obj_alloc_old _ hr
  simp only [move_ctor, hr, set_disk_io, h1]

/-- The closed form of move assignment between two different objects. -/
theorem move_assign_distinct {w : world} {this rhs : Nat} {a b : storage_holder}
    (hne : this ≠ rhs) (ha : w.obj this = some a) (hb : w.obj rhs = some b) :
    move_assign this rhs w = some
      ((({ w with log := w.log ++ removal_of a } : world).store this
        ⟨b.m_disk_io, b.m_idx⟩).store rhs ⟨none, b.m_idx⟩) := by
  have h2 : ∀ (v : world) (x : storage_holder), v.obj rhs = some b →
      (v.store this x).obj rhs = some b := by
    intro v x hv
    rw [obj_store_other _ _ hne]; exact hv
  have h1 : ({ w with log := w.log ++ removal_of a } : world).obj rhs = some b := hb
  have h0 : ({ w with log := w.log ++ removal_of a } : world).obj this = some a := ha
  simp only [move_assign, remove_if_active_eq ha, Option.some_bind, h1, set_disk_io, h0,
    h2 _ _ h1, set_idx, obj_store_same _ h0, store_store]

/-- The closed form of self move assignment. -/
theorem move_assign_self {w : world} {this : Nat} {a : storage_holder}
    (ha : w.obj this = some a) :
    move_assign this this w = some
      (({ w with log := w.log ++ removal_of a } : world).store this ⟨none, a.m_idx⟩) := by
  have h0 : ({ w with log := w.log ++ removal_of a } : world).obj this = some a := ha
  simp only [move_assign, remove_if_active_eq ha, Option.some_bind, set_disk_io, h0,
    set_idx, obj_store_same _ h0, store_store,
    obj_store_same _ (obj_store_same _ h0)]

/-- An operation that does not name the object `p` leaves `p` as it is. -/
theorem step_frame {o : holder_op} {w w1 : world} {p : Nat} {x : storage_holder}
    (hs : step o w = some w1) (hm : o.mentions p = false) (hp : w.obj p = some x) :
    w1.obj p = some x := by
  cases o with
  | construct idx d =>
    simp only [step, Option.some.injEq] at hs
    subst hs
    exact obj_alloc_old _ hp
  | default_construct =>
    simp only [step, Option.some.injEq] at hs
    subst hs
    exact obj_alloc_old _ hp
  | move_construct rhs =>
    simp only [holder_op.mentions, decide_eq_false_iff_not] at hm
    simp only [step] at hs
    cases hr : w.obj rhs with
    | none => simp [move_ctor, hr] at hs
    | some r =>
      rw [move_ctor_eq hr, Option.some.injEq] at hs
      subst hs
      rw [obj_store_other _ _ hm]
      exact obj_alloc_old _ hp
  | move_assign this rhs =>
    simp only [holder_op.mentions, Bool.or_eq_false_iff, decide_eq_false_iff_not] at hm
    simp only [step] at hs
    cases ha : w.obj this with
    | none => simp [move_assign, remove_if_active, ha] at hs
    | some a =>
      cases hb : w.obj rhs with
      | none =>
        have : ({ w with log := w.log ++ removal_of a } : world).obj rhs = none := hb
        simp [move_assign, remove_if_active_eq ha, this] at hs
      | some b =>
        by_cases hne : this = rhs
        · subst hne
          rw [move_assign_self ha, Option.some.injEq] at hs
          subst hs
          rw [obj_store_other _ _ hm.1]
          exact hp
        · rw [move_assign_distinct hne ha hb, Option.some.injEq] at hs
          subst hs
          rw [obj_store_other _ _ hm.2, obj_store_other _ _ hm.1]
          exact hp
  | reset this =>
    simp only [holder_op.mentions, decide_eq_false_iff_not] at hm
    simp only [step] at hs
    cases ha : w.obj this with
    | none => simp [reset, remove_if_active, ha] at hs
    | some a =>
      rw [reset_eq ha, Option.some.injEq] at hs
      subst hs
      rw [obj_store_other _ _ hm]
      exact hp
  | destroy this =>
    simp only [holder_op.mentions, decide_eq_false_iff_not] at hm
    simp only [step] at hs
    cases ha : w.obj this with
    | none => simp [dtor, remove_if_active, ha] at hs
    | some a =>
      rw [dtor_eq ha, Option.some.injEq] at hs
      subst hs
      rw [obj_free_other _ hm]
      exact hp

/-- Operations that do not name the object `p` leave `p` as it is. -/
theorem run_frame : ∀ (ops : List holder_op) (w w1 : world) (p : Nat) (x : storage_holder),
    run ops w = some w1 → (∀ o ∈ ops, o.mentions p = false) → w.obj p = some x →
    w1.obj p = some x := by
  intro ops
  induction ops with
  | nil =>
    intro w w1 p x hrun _ hp
    simp only [run, Option.some.injEq] at hrun
    subst hrun
    exact hp
  | cons o os ih =>
    intro w w1 p x hrun hm hp
    simp only [run] at hrun
    cases hs : step o w with
    | none => simp [hs] at hrun
    | some w2 =>
      rw [hs, Option.some_bind] at hrun
      exact ih w2 w1 p x hrun (fun o1 h1 => hm o1 (List.mem_cons_of_mem _ h1))
        (step_frame hs (hm o (List.mem_cons_self _ _)) hp)

/-! ## The holder's member functions, one by one -/

/-- C1 as stated fails: the holder built from index 7 and dispatcher 1 is never
moved from or reset, but it is move-assigned to from the holder for index 9; the
assignment already logs `remove_torrent(7)`, and destroying the holder then logs
`remove_torrent(9)`, not `remove_torrent(7)`. -/
theorem dtor_after_move_assign_to :
    ∃ w1 w2,
      run [holder_op.construct 7 1, holder_op.construct 9 1, holder_op.move_assign 0 1] {}
        = some w1 ∧
      w1.log = [(1, disk_call.remove_torrent 7)] ∧
      dtor 0 w1 = some w2 ∧
      w2.log = w1.log ++ [(1, disk_call.remove_torrent 9)] :=
  ⟨⟨[some ⟨some 1, 9⟩, some ⟨none, 9⟩], [(1, disk_call.remove_torrent 7)]⟩,
    ⟨[none, some ⟨none, 9⟩],
      [(1, disk_call.remove_torrent 7), (1, disk_call.remove_torrent 9)]⟩,
    by decide, by decide, by decide, by decide⟩

/-- C1, amended: construct a holder from `(idx, d)`, then run any operations that do
not name it (so it is not moved from, reset or move-assigned to); destroying it
afterwards succeeds, ends its lifetime and extends the log by exactly the one call
`d.remove_torrent(idx)`.  The construction itself makes no call. -/
theorem dtor_of_constructed (idx : storage_index_t) (d : disk_ptr) (w w1 : world)
    (ops : List holder_op) (hops : ∀ o ∈ ops, o.mentions w.heap.length = false)
    (hrun : run ops (ctor idx d w) = some w1) :
    (ctor idx d w).log = w.log ∧
    ∃ w2, dtor w.heap.length w1 = some w2 ∧
      w2.log = w1.log ++ [(d, disk_call.remove_torrent idx)] ∧
      w2.obj w.heap.length = none := by
  have hnew : (ctor idx d w).obj w.heap.length = some ⟨some d, idx⟩ := obj_alloc_new w _
  have hp := run_frame ops _ w1 _ _ hrun hops hnew
  exact ⟨rfl, _, dtor_active hp, rfl, obj_free_same _ _⟩

/-- Witness of the amended C1: the holder for index 7 of dispatcher 1 is built first; a second
holder is built, moved and reset in between; destroying the first one then adds the
single call `remove_torrent(7)` on dispatcher 1. -/
theorem dtor_of_constructed_witness :
    ∃ w2, dtor 0 ⟨[some ⟨some 1, 7⟩, some ⟨none, 9⟩, some ⟨none, 9⟩],
          [(1, disk_call.remove_torrent 9)]⟩ = some w2 ∧
      w2.log = [(1, disk_call.remove_torrent 9)] ++ [(1, disk_call.remove_torrent 7)] ∧
      w2.obj 0 = none :=
  (dtor_of_constructed 7 1 {}
    ⟨[some ⟨some 1, 7⟩, some ⟨none, 9⟩, some ⟨none, 9⟩], [(1, disk_call.remove_torrent 9)]⟩
    [holder_op.construct 9 1, holder_op.move_construct 1, holder_op.reset 2]
    (by decide) (by decide)).2

/-- C2: move-constructing from an active holder `rhs` (index `idx`, dispatcher `d`)
makes no call, creates a new holder that is active with the same `idx` and `d`,
leaves `rhs` empty (`operator bool` is false), and destroying `rhs` afterwards
makes no call either. -/
theorem move_ctor_active (w : world) (rhs : Nat) (idx : storage_index_t) (d : disk_ptr)
    (hp : w.obj rhs = some ⟨some d, idx⟩) :
    ∃ w1, move_ctor rhs w = some w1 ∧ w1.log = w.log ∧
      w1.obj w.heap.length = some ⟨some d, idx⟩ ∧
      (w1.obj rhs).map storage_holder.operator_bool = some false ∧
      ∃ w2, dtor rhs w1 = some w2 ∧ w2.log = w.log := by
  have hlt := obj_lt hp
  have hne : rhs ≠ w.heap.length := Nat.ne_of_lt hlt
  have h1 : (w.alloc ⟨some d, idx⟩).obj rhs = some ⟨some d, idx⟩ := obj_alloc_old _ hp
  have hsrc : ((w.alloc ⟨some d, idx⟩).store rhs ⟨none, idx⟩).obj rhs = some ⟨none, idx⟩ :=
    obj_store_same _ h1
  refine ⟨(w.alloc ⟨some d, idx⟩).store rhs ⟨none, idx⟩, ?_, rfl, ?_, ?_, ?_⟩
  · simp [move_ctor, hp, set_disk_io, h1]
  · rw [obj_store_other _ _ hne]
    exact obj_alloc_new w _
  · rw [hsrc]
    rfl
  · refine ⟨((w.alloc ⟨some d, idx⟩).store rhs ⟨none, idx⟩).free rhs, ?_, rfl⟩
    simp [dtor, remove_if_active_empty hsrc]

/-- Witness of C2: moving out of the holder built from index 7 and dispatcher 1. -/
theorem move_ctor_active_witness :
    ∃ w1, move_ctor 0 (ctor 7 1 {}) = some w1 ∧ w1.log = (ctor 7 1 {}).log ∧
      w1.obj (ctor 7 1 {}).heap.length = some ⟨some 1, 7⟩ ∧
      (w1.obj 0).map storage_holder.operator_bool = some false ∧
      ∃ w2, dtor 0 w1 = some w2 ∧ w2.log = (ctor 7 1 {}).log :=
  move_ctor_active (ctor 7 1 {}) 0 7 1 (by decide)

/-- C3: on an active holder `(idx, d)` the first `reset` calls
`d.remove_torrent(idx)` exactly once and leaves the holder empty; every further
`reset` leaves the whole state unchanged and the destruction makes no call, so any
positive number of resets followed by the destruction logs exactly one
`remove_torrent(idx)`; and `reset` on an empty holder changes nothing. -/
theorem reset_idempotent (w : world) (p : Nat) (idx : storage_index_t) (d : disk_ptr)
    (hp : w.obj p = some ⟨some d, idx⟩) :
    (∃ w1, reset p w = some w1 ∧
      w1.log = w.log ++ [(d, disk_call.remove_torrent idx)] ∧
      (w1.obj p).map storage_holder.operator_bool = some false ∧
      (∀ n, reset_times p n w1 = some w1) ∧
      ∃ w2, dtor p w1 = some w2 ∧ w2.log = w1.log) ∧
    (∀ n, ∃ w2, (reset_times p (n + 1) w).bind (dtor p) = some w2 ∧
      w2.log = w.log ++ [(d, disk_call.remove_torrent idx)]) ∧
    (∃ w3, run [holder_op.reset p, holder_op.reset p, holder_op.destroy p] w = some w3 ∧
      w3.log = w.log ++ [(d, disk_call.remove_torrent idx)]) ∧
    ∀ (v : world) (q : Nat) (i : storage_index_t), v.obj q = some ⟨none, i⟩ →
      reset q v = some v := by
  have hr := reset_active hp
  have he : ((w.call d (disk_call.remove_torrent idx)).store p ⟨none, idx⟩).obj p
      = some ⟨none, idx⟩ := obj_store_same _ (by rw [obj_call]; exact hp)
  have hd : dtor p ((w.call d (disk_call.remove_torrent idx)).store p ⟨none, idx⟩)
      = some (((w.call d (disk_call.remove_torrent idx)).store p ⟨none, idx⟩).free p) := by
    simp [dtor, remove_if_active_empty he]
  refine ⟨⟨_, hr, rfl, ?_, fun n => reset_times_empty he n, _, hd, rfl⟩, ?_, ?_, ?_⟩
  · rw [he]; rfl
  · intro n
    refine ⟨((w.call d (disk_call.remove_torrent idx)).store p ⟨none, idx⟩).free p, ?_, rfl⟩
    simp only [reset_times, hr, Option.some_bind, reset_times_empty he n]
    exact hd
  · refine ⟨((w.call d (disk_call.remove_torrent idx)).store p ⟨none, idx⟩).free p, ?_, rfl⟩
    simp only [run, step, hr, Option.some_bind, reset_empty he, hd]
  · intro v q i hq
    exact reset_empty hq

/-- Witness of C3 on the holder built from index 7 and dispatcher 1. -/
theorem reset_idempotent_witness :
    ∃ w3, run [holder_op.reset 0, holder_op.reset 0, holder_op.destroy 0] (ctor 7 1 {})
        = some w3 ∧ w3.log = [(1, disk_call.remove_torrent 7)] :=
  (reset_idempotent (ctor 7 1 {}) 0 7 1 (by decide)).2.2.1

/-- C4: a default-constructed holder is empty: `operator bool` is false, no call
is made by the construction, and neither destroying it nor calling `reset` on it
adds a call to the log (`reset` leaves the whole state as it is). -/
theorem default_ctor_empty (w : world) :
    (default_ctor w).log = w.log ∧
    ((default_ctor w).obj w.heap.length).map storage_holder.operator_bool = some false ∧
    (∃ w1, dtor w.heap.length (default_ctor w) = some w1 ∧ w1.log = w.log) ∧
    reset w.heap.length (default_ctor w) = some (default_ctor w) := by
  have hnew : (default_ctor w).obj w.heap.length = some ⟨none, 0⟩ := obj_alloc_new w _
  refine ⟨rfl, ?_, ⟨(default_ctor w).free w.heap.length, ?_, rfl⟩, reset_empty hnew⟩
  · rw [hnew]; rfl
  · simp [dtor, remove_if_active_empty hnew]

/-- C7 as stated fails: when `TORRENT_USE_ASSERTS` is off, reading the index of
a default-constructed (hence empty) holder succeeds and yields the value 0. -/
theorem read_index_of_empty_unchecked :
    storage_holder.operator_bool {} = false ∧
    storage_holder.operator_storage_index_t false {} = Except.ok 0 :=
  ⟨rfl, rfl⟩

/-- C7, amended: reading the wrapped index of an active holder returns the index
it was activated with, whatever the build; in a build with `TORRENT_USE_ASSERTS`
the read succeeds if and only if the holder is active and is a failed assertion on
an empty holder; in a build without it the read returns the stored `m_idx`. -/
theorem read_index_checked (h : storage_holder) :
    (∀ b, h.operator_bool = true → h.operator_storage_index_t b = Except.ok h.m_idx) ∧
    ((∃ i, h.operator_storage_index_t true = Except.ok i) ↔ h.operator_bool = true) ∧
    (h.operator_bool = false →
      h.operator_storage_index_t true = Except.error assertion_failure.failed) ∧
    h.operator_storage_index_t false = Except.ok h.m_idx := by
  obtain ⟨dio, idx⟩ := h
  cases dio <;>
    simp [storage_holder.operator_bool, storage_holder.operator_storage_index_t,
      TORRENT_ASSERT]

/-- Witness of the amended C7 on the holder wrapping index 7 of dispatcher 1. -/
theorem read_index_checked_witness :
    storage_holder.operator_storage_index_t true ⟨some 1, 7⟩ = Except.ok 7 :=
  (read_index_checked ⟨some 1, 7⟩).1 true (by decide)

/-- C8: move assignment `a = std::move(b)` between two different holders leaves `a`
with the dispatcher pointer and index `b` had (so `a` is active exactly when `b`
was), leaves `b` empty, leaves every other object alone, and extends the log by one
`remove_torrent` for the index `a` held before if `a` was active, by nothing if not. -/
theorem move_assign_transfers (w : world) (a b : Nat) (ha hb : storage_holder)
    (hne : a ≠ b) (hoa : w.obj a = some ha) (hob : w.obj b = some hb) :
    ∃ w1, move_assign a b w = some w1 ∧
      w1.obj a = some ⟨hb.m_disk_io, hb.m_idx⟩ ∧
      ((w1.obj a).map storage_holder.operator_bool = some hb.operator_bool) ∧
      (w1.obj b).map storage_holder.operator_bool = some false ∧
      (∀ q, q ≠ a → q ≠ b → w1.obj q = w.obj q) ∧
      w1.log = w.log ++
        (match ha.m_disk_io with
          | some d => [(d, disk_call.remove_torrent ha.m_idx)]
          | none => []) := by
  have h0 : ({ w with log := w.log ++ removal_of ha } : world).obj a = some ha := hoa
  have h1 : ({ w with log := w.log ++ removal_of ha } : world).obj b = some hb := hob
  have h2 : (({ w with log := w.log ++ removal_of ha } : world).store a
      ⟨hb.m_disk_io, hb.m_idx⟩).obj b = some hb := by
    rw [obj_store_other _ _ hne]; exact h1
  refine ⟨_, move_assign_distinct hne hoa hob, ?_, ?_, ?_, ?_, rfl⟩
  · rw [obj_store_other _ _ (Ne.symm hne)]
    exact obj_store_same _ h0
  · rw [obj_store_other _ _ (Ne.symm hne), obj_store_same _ h0]
    rfl
  · rw [obj_store_same _ h2]
    rfl
  · intro q hqa hqb
    rw [obj_store_other _ _ (Ne.symm hqb), obj_store_other _ _ (Ne.symm hqa)]
    rfl

/-- Witness of C8: the holder for index 7 is assigned from the holder for index 9,
both of dispatcher 1; the only call is `remove_torrent(7)`. -/
theorem move_assign_transfers_witness :
    ∃ w1, move_assign 0 1 (ctor 9 1 (ctor 7 1 {})) = some w1 ∧
      w1.obj 0 = some ⟨some 1, 9⟩ ∧
      ((w1.obj 0).map storage_holder.operator_bool = some true) ∧
      (w1.obj 1).map storage_holder.operator_bool = some false ∧
      (∀ q, q ≠ 0 → q ≠ 1 → w1.obj q = (ctor 9 1 (ctor 7 1 {})).obj q) ∧
      w1.log = [(1, disk_call.remove_torrent 7)] :=
  move_assign_transfers (ctor 9 1 (ctor 7 1 {})) 0 1 ⟨some 1, 7⟩ ⟨some 1, 9⟩
    (by decide) (by decide) (by decide)

/-! ## Accounting of activations and removals -/

/-- Replacing one element of a list changes the multiset of its `filterMap` image
by the image of that element. -/
theorem filterMap_set_add {α β : Type} (f : α → Option β) :
    ∀ (l : List α) (p : Nat) (o o' : α), l[p]? = some o →
      (((l.set p o').filterMap f : List β) : Multiset β) + ((f o).toList : Multiset β)
        = ((l.filterMap f : List β) : Multiset β) + ((f o').toList : Multiset β) := by
  intro l
  induction l with
  | nil => intro p o o' h; simp at h
  | cons x t ih =>
    intro p o o' h
    cases p with
    | zero =>
      simp only [List.getElem?_cons_zero, Option.some.injEq] at h
      subst h
      simp only [List.set_cons_zero, List.filterMap_cons]
      cases f x <;> cases f o' <;>
        simp [Option.toList, ← Multiset.cons_coe, ← Multiset.singleton_add] <;> abel
    | succ p =>
      simp only [List.getElem?_cons_succ] at h
      have := ih p o o' h
      simp only [List.set_cons_succ, List.filterMap_cons]
      cases f x with
      | none => simpa using this
      | some b =>
        simp only [← Multiset.cons_coe, Multiset.cons_add]
        rw [this]

/-- Overwriting a live object exchanges its token for the token of the new value. -/
theorem tokens_store {w : world} {p : Nat} {h : storage_holder} (h' : storage_holder)
    (hp : w.obj p = some h) :
    ((active_tokens (w.store p h') : List _) : Multiset (disk_ptr × storage_index_t))
        + ((token_of (some h)).toList : Multiset _)
      = ((active_tokens w : List _) : Multiset _) + ((token_of (some h')).toList : Multiset _) :=
  filterMap_set_add token_of w.heap p (some h) (some h') (obj_eq_some_iff.mp hp)

/-- Ending the lifetime of an object takes its token away. -/
theorem tokens_free {w : world} {p : Nat} {h : storage_holder} (hp : w.obj p = some h) :
    ((active_tokens (w.free p) : List _) : Multiset (disk_ptr × storage_index_t))
        + ((token_of (some h)).toList : Multiset _)
      = ((active_tokens w : List _) : Multiset _) := by
  have := filterMap_set_add token_of w.heap p (some h) none (obj_eq_some_iff.mp hp)
  simpa [token_of] using this

/-- A new object adds its token. -/
theorem tokens_alloc (w : world) (h : storage_holder) :
    active_tokens (w.alloc h) = active_tokens w ++ (token_of (some h)).toList := by
  simp only [active_tokens, world.alloc, List.filterMap_append]
  cases hh : token_of (some h) <;> simp [List.filterMap_cons, hh]

/-- The removals logged by `if (m_disk_io) m_disk_io->remove_torrent(m_idx);` are the
token of the holder. -/
theorem remove_calls_removal_of (log : List (disk_ptr × disk_call)) (h : storage_holder) :
    remove_calls (log ++ removal_of h) = remove_calls log ++ (token_of (some h)).toList := by
  obtain ⟨dio, idx⟩ := h
  cases dio <;> simp [remove_calls, removal_of, token_of, List.filterMap_append]

/-- The token of a holder depends on its two members only. -/
theorem token_of_eta (h : storage_holder) :
    token_of (some ⟨h.m_disk_io, h.m_idx⟩) = token_of (some h) := rfl

/-- An empty holder has no token. -/
theorem token_of_empty (idx : storage_index_t) : token_of (some ⟨none, idx⟩) = none := rfl

/-- Two exchanges of tokens in a row, the second giving back what the first took. -/
theorem exchange_twice {γ : Type} (T2 T1 T A B : Multiset γ)
    (e1 : T1 + A = T + B) (e2 : T2 + B = T1) : T2 + A = T := by
  apply add_right_cancel (b := B)
  calc T2 + A + B = (T2 + B) + A := by abel
    _ = T1 + A := by rw [e2]
    _ = T + B := e1

theorem toList_none_coe {γ : Type} :
    (((none : Option γ).toList : List γ) : Multiset γ) = 0 := rfl

/-- One operation: the tokens it takes away from the live holders are exactly the
removals it logs, and the only token it adds is that of a two-argument construction. -/
theorem step_effect {o : holder_op} {w w1 : world} (h : step o w = some w1) :
    ∃ R : Multiset (disk_ptr × storage_index_t),
      ((active_tokens w1 : List _) : Multiset _) + R
        = ((active_tokens w : List _) : Multiset _) + ((activations [o] : List _) : Multiset _) ∧
      ((remove_calls w1.log : List _) : Multiset _)
        = ((remove_calls w.log : List _) : Multiset _) + R := by
  cases o with
  | construct idx d =>
    simp only [step, Option.some.injEq] at h
    subst h
    refine ⟨0, ?_, by simp [ctor, world.alloc]⟩
    simp [ctor, tokens_alloc, token_of, activations, ← Multiset.coe_add]
  | default_construct =>
    simp only [step, Option.some.injEq] at h
    subst h
    refine ⟨0, ?_, by simp [default_ctor, world.alloc]⟩
    simp [default_ctor, tokens_alloc, token_of, activations]
  | move_construct rhs =>
    simp only [step] at h
    cases hr : w.obj rhs with
    | none => simp [move_ctor, hr] at h
    | some r =>
      have h1 : (w.alloc ⟨r.m_disk_io, r.m_idx⟩).obj rhs = some r := obj_alloc_old _ hr
      simp only [move_ctor, hr, set_disk_io, h1, Option.some.injEq] at h
      subst h
      refine ⟨0, ?_, by simp [world.store, world.alloc]⟩
      have e1 := tokens_store ⟨none, r.m_idx⟩ h1
      rw [tokens_alloc, token_of_eta, token_of_empty, toList_none_coe, add_zero,
        ← Multiset.coe_add] at e1
      simp only [activations, List.filterMap_cons, List.filterMap_nil, Multiset.coe_nil,
        add_zero]
      exact add_right_cancel e1
  | move_assign this rhs =>
    simp only [step] at h
    cases ha : w.obj this with
    | none => simp [move_assign, remove_if_active, ha] at h
    | some a =>
      cases hb : w.obj rhs with
      | none =>
        have : ({ w with log := w.log ++ removal_of a } : world).obj rhs = none := hb
        simp [move_assign, remove_if_active_eq ha, this] at h
      | some b =>
        refine ⟨((token_of (some a)).toList : Multiset _), ?_, ?_⟩
        · simp only [activations, List.filterMap_cons, List.filterMap_nil, Multiset.coe_nil,
            add_zero]
          by_cases hne : this = rhs
          · subst hne
            rw [move_assign_self ha, Option.some.injEq] at h
            subst h
            have e1 := tokens_store (w := ({ w with log := w.log ++ removal_of a } : world))
              ⟨none, a.m_idx⟩ ha
            rw [token_of_empty, toList_none_coe, add_zero] at e1
            exact e1
          · rw [move_assign_distinct hne ha hb, Option.some.injEq] at h
            subst h
            have e1 := tokens_store (w := ({ w with log := w.log ++ removal_of a } : world))
              ⟨b.m_disk_io, b.m_idx⟩ ha
            have hb1 : (({ w with log := w.log ++ removal_of a } : world).store this
                ⟨b.m_disk_io, b.m_idx⟩).obj rhs = some b := by
              rw [obj_store_other _ _ hne]; exact hb
            have e2 := tokens_store ⟨none, b.m_idx⟩ hb1
            rw [token_of_empty, toList_none_coe, add_zero] at e2
            rw [token_of_eta] at e1
            exact exchange_twice _ _ _ _ _ e1 e2
        · by_cases hne : this = rhs
          · subst hne
            rw [move_assign_self ha, Option.some.injEq] at h
            subst h
            simp [world.store, remove_calls_removal_of]
          · rw [move_assign_distinct hne ha hb, Option.some.injEq] at h
            subst h
            simp [world.store, remove_calls_removal_of]
  | reset this =>
    simp only [step] at h
    cases ha : w.obj this with
    | none => simp [reset, remove_if_active, ha] at h
    | some a =>
      have h0 : ({ w with log := w.log ++ removal_of a } : world).obj this = some a := ha
      simp only [reset, remove_if_active_eq ha, Option.some_bind, set_disk_io, h0,
        Option.some.injEq] at h
      subst h
      refine ⟨((token_of (some a)).toList : Multiset _), ?_, ?_⟩
      · have e1 := tokens_store (w := ({ w with log := w.log ++ removal_of a } : world))
          ⟨none, a.m_idx⟩ ha
        rw [token_of_empty, toList_none_coe, add_zero] at e1
        simpa [activations] using e1
      · simp [world.store, remove_calls_removal_of]
  | destroy this =>
    simp only [step] at h
    cases ha : w.obj this with
    | none => simp [dtor, remove_if_active, ha] at h
    | some a =>
      simp only [dtor, remove_if_active_eq ha, Option.map_some', Option.some.injEq] at h
      subst h
      refine ⟨((token_of (some a)).toList : Multiset _), ?_, ?_⟩
      · have e1 := tokens_free (w := ({ w with log := w.log ++ removal_of a } : world)) ha
        simpa [activations] using e1
      · simp [world.free, remove_calls_removal_of]

theorem activations_cons (o : holder_op) (os : List holder_op) :
    activations (o :: os) = activations [o] ++ activations os := by
  have : o :: os = [o] ++ os := rfl
  rw [this]
  simp only [activations, List.filterMap_append]

/-- A sequence of operations: the removals it logs are the tokens it takes away from
the live holders, and the tokens it adds are those of its two-argument
constructions. -/
theorem run_effect : ∀ (ops : List holder_op) (w w1 : world), run ops w = some w1 →
    ∃ R : Multiset (disk_ptr × storage_index_t),
      ((active_tokens w1 : List _) : Multiset _) + R
        = ((active_tokens w : List _) : Multiset _) + ((activations ops : List _) : Multiset _) ∧
      ((remove_calls w1.log : List _) : Multiset _)
        = ((remove_calls w.log : List _) : Multiset _) + R := by
  intro ops
  induction ops with
  | nil =>
    intro w w1 h
    simp only [run, Option.some.injEq] at h
    subst h
    exact ⟨0, by simp [activations], by simp⟩
  | cons o os ih =>
    intro w w1 h
    simp only [run] at h
    cases hs : step o w with
    | none => simp [hs] at h
    | some w2 =>
      rw [hs, Option.some_bind] at h
      obtain ⟨R1, a1, b1⟩ := step_effect hs
      obtain ⟨R2, a2, b2⟩ := ih w2 w1 h
      refine ⟨R1 + R2, ?_, ?_⟩
      · rw [activations_cons, ← Multiset.coe_add]
        calc ((active_tokens w1 : List _) : Multiset _) + (R1 + R2)
            = (((active_tokens w1 : List _) : Multiset _) + R2) + R1 := by abel
          _ = (((active_tokens w2 : List _) : Multiset _) + R1)
                + ((activations os : List _) : Multiset _) := by rw [a2]; abel
          _ = _ := by rw [a1]; abel
      · rw [b2, b1, add_assoc]

theorem active_tokens_of_all_destroyed {w : world} (h : all_destroyed w) :
    active_tokens w = [] := by
  have key : ∀ l : List (Option storage_holder), (∀ o ∈ l, o = none) →
      l.filterMap token_of = [] := by
    intro l
    induction l with
    | nil => intro _; rfl
    | cons x t ih =>
      intro hl
      have hx : x = none := hl x (List.mem_cons_self _ _)
      subst hx
      simp only [List.filterMap_cons, token_of]
      exact ih fun o ho => hl o (List.mem_cons_of_mem _ ho)
  exact key w.heap h

/-- One operation keeps the live active holders pairwise different in what they
wrap, provided a two-argument construction uses a pair no live holder wraps. -/
theorem nodup_step {o : holder_op} {w w1 : world} (h : step o w = some w1)
    (hnd : (active_tokens w).Nodup)
    (hfresh : ∀ idx d, o = holder_op.construct idx d → num_active w d idx = 0) :
    (active_tokens w1).Nodup := by
  obtain ⟨R, e, _⟩ := step_effect h
  by_cases hc : ∃ idx d, o = holder_op.construct idx d
  · obtain ⟨idx, d, rfl⟩ := hc
    have h0 := hfresh idx d rfl
    unfold num_active at h0
    simp only [step, Option.some.injEq] at h
    subst h
    rw [ctor, tokens_alloc]
    simp only [token_of, Option.toList]
    rw [List.nodup_append]
    refine ⟨hnd, List.nodup_singleton _, ?_⟩
    intro x hx hx1
    rw [List.mem_singleton] at hx1
    subst hx1
    have hno := List.countP_eq_zero.mp h0 _ hx
    simp at hno
  · have hact : activations [o] = [] := by
      cases o with
      | construct idx d => exact absurd ⟨idx, d, rfl⟩ hc
      | _ => rfl
    rw [hact, Multiset.coe_nil, add_zero] at e
    have hle : ((active_tokens w1 : List _) : Multiset (disk_ptr × storage_index_t))
        ≤ ((active_tokens w : List _) : Multiset _) := by
      rw [← e]
      exact Multiset.le_add_right _ _
    exact Multiset.coe_nodup.mp (Multiset.nodup_of_le hle (Multiset.coe_nodup.mpr hnd))

/-- The live active holders stay pairwise different in what they wrap along every
prefix of a sequence whose two-argument constructions are fresh. -/
theorem nodup_run : ∀ (ops : List holder_op) (w : world) (n : Nat) (w1 : world),
    (active_tokens w).Nodup → fresh_constructs ops w = true →
    run (ops.take n) w = some w1 → (active_tokens w1).Nodup := by
  intro ops
  induction ops with
  | nil =>
    intro w n w1 hnd _ hrun
    simp only [List.take_nil, run, Option.some.injEq] at hrun
    subst hrun
    exact hnd
  | cons o os ih =>
    intro w n w1 hnd hfresh hrun
    cases n with
    | zero =>
      simp only [List.take_zero, run, Option.some.injEq] at hrun
      subst hrun
      exact hnd
    | succ n =>
      simp only [List.take_succ_cons, run] at hrun
      cases hs : step o w with
      | none => simp [hs] at hrun
      | some w2 =>
        rw [hs, Option.some_bind] at hrun
        simp only [fresh_constructs, hs, Bool.and_eq_true] at hfresh
        refine ih w2 n w1 (nodup_step hs hnd ?_) hfresh.2 hrun
        intro idx d ho
        subst ho
        simpa using hfresh.1

/-! ## The holder's life cycle -/

/-- C5: run any finite sequence of holder operations (two-argument or default
construction, move construction, move assignment, `reset`, destruction)
from the state without holders; if it executes and no holder is alive at its end,
then for every dispatcher `d` the multiset of indices of the `remove_torrent` calls
`d` received equals the multiset of indices passed with `d` to the two-argument
constructor. -/
theorem removals_match_activations (ops : List holder_op) (w1 : world) (d : disk_ptr)
    (hrun : run ops {} = some w1) (hall : all_destroyed w1) :
    ((removed_from d w1.log : List storage_index_t) : Multiset storage_index_t)
      = ((activated_with d ops : List storage_index_t) : Multiset storage_index_t) := by
  obtain ⟨R, a, b⟩ := run_effect ops {} w1 hrun
  rw [active_tokens_of_all_destroyed hall] at a
  have ha : R = ((activations ops : List _) : Multiset _) := by
    simpa [active_tokens] using a
  have hb : ((remove_calls w1.log : List _) : Multiset (disk_ptr × storage_index_t))
      = ((activations ops : List _) : Multiset _) := by
    rw [b, ha]
    simp [remove_calls]
  have hperm : (remove_calls w1.log).Perm (activations ops) := Multiset.coe_eq_coe.mp hb
  exact Multiset.coe_eq_coe.mpr ((hperm.filter _).map _)

/-- Witness of C5: two activations on dispatcher 1 (indices 7 and 9), one on
dispatcher 2, shuffled through a move construction, a move assignment and a reset;
every holder is destroyed at the end. -/
theorem removals_match_activations_witness :
    ((removed_from 1
        [(1, disk_call.remove_torrent 9), (1, disk_call.remove_torrent 7),
          (2, disk_call.remove_torrent 7)] : List storage_index_t) :
        Multiset storage_index_t)
      = ((activated_with 1
          [holder_op.construct 7 1, holder_op.construct 9 1, holder_op.default_construct,
            holder_op.construct 7 2, holder_op.move_construct 0, holder_op.move_assign 2 1,
            holder_op.reset 2, holder_op.destroy 0, holder_op.destroy 1,
            holder_op.destroy 2, holder_op.destroy 4, holder_op.destroy 3] :
          List storage_index_t) : Multiset storage_index_t) :=
  removals_match_activations
    [holder_op.construct 7 1, holder_op.construct 9 1, holder_op.default_construct,
      holder_op.construct 7 2, holder_op.move_construct 0, holder_op.move_assign 2 1,
      holder_op.reset 2, holder_op.destroy 0, holder_op.destroy 1,
      holder_op.destroy 2, holder_op.destroy 4, holder_op.destroy 3]
    ⟨[none, none, none, none, none],
      [(1, disk_call.remove_torrent 9), (1, disk_call.remove_torrent 7),
        (2, disk_call.remove_torrent 7)]⟩
    1 (by decide) (by decide)

/-- C6 as stated fails: the two-argument constructor is public and checks nothing,
so constructing twice from index 7 and dispatcher 1 leaves two live active holders
wrapping the same index of the same dispatcher, and destroying both removes that
index twice. -/
theorem two_active_holders_same_index :
    ∃ w1, run [holder_op.construct 7 1, holder_op.construct 7 1] {} = some w1 ∧
      num_active w1 1 7 = 2 ∧
      ∃ w2, run [holder_op.destroy 0, holder_op.destroy 1] w1 = some w2 ∧
        w2.log = [(1, disk_call.remove_torrent 7), (1, disk_call.remove_torrent 7)] :=
  ⟨⟨[some ⟨some 1, 7⟩, some ⟨some 1, 7⟩], []⟩, by decide, by decide,
    ⟨[none, none], [(1, disk_call.remove_torrent 7), (1, disk_call.remove_torrent 7)]⟩,
    by decide, by decide⟩

/-- C6, amended: start from the state without holders and run any sequence of
holder operations in which every two-argument construction uses a (dispatcher,
index) pair that no live active holder wraps at that moment; then after every
prefix of the sequence at most one live active holder wraps a given index of a
given dispatcher. -/
theorem at_most_one_active_of_fresh (ops : List holder_op) (n : Nat) (w1 : world)
    (d : disk_ptr) (idx : storage_index_t)
    (hfresh : fresh_constructs ops {} = true)
    (hrun : run (ops.take n) {} = some w1) :
    num_active w1 d idx ≤ 1 :=
  List.nodup_iff_count_le_one.mp
    (nodup_run ops {} n w1 (by simp [active_tokens]) hfresh hrun) (d, idx)

/-- Witness of the amended C6: after the first three of five operations the holder
for index 9 has been moved into the holder that wrapped index 7. -/
theorem at_most_one_active_of_fresh_witness :
    num_active ⟨[some ⟨some 1, 9⟩, some ⟨none, 9⟩], [(1, disk_call.remove_torrent 7)]⟩ 1 9
      ≤ 1 :=
  at_most_one_active_of_fresh
    [holder_op.construct 7 1, holder_op.construct 9 1, holder_op.move_assign 0 1,
      holder_op.construct 7 1, holder_op.destroy 0]
    3 ⟨[some ⟨some 1, 9⟩, some ⟨none, 9⟩], [(1, disk_call.remove_torrent 7)]⟩ 1 9
    (by decide) (by decide)

/-! ## Flag words -/

/-- C9: `rw_mask` is 3, that is exactly the two least significant bits; the modes
`read_only`, `write_only` and `read_write` are pairwise different; for every mode
`m` and every combination `a` of `sparse`, `no_atime`, `random_access`, `locked`,
`(m | a) & rw_mask == m` and `(m | a) & ~rw_mask == a`; hence a word built from a
mode and auxiliary flags determines its mode. -/
theorem rw_mask_separates_modes :
    file_open_mode.rw_mask = 3 ∧
    (∀ k, file_open_mode.rw_mask.testBit k = decide (k < 2)) ∧
    file_open_mode.modes.Nodup ∧
    (∀ m ∈ file_open_mode.modes, ∀ s n r l : Bool,
      (m ||| file_open_mode.aux_bits s n r l) &&& file_open_mode.rw_mask = m ∧
      (m ||| file_open_mode.aux_bits s n r l) &&& bit_not file_open_mode.rw_mask
        = file_open_mode.aux_bits s n r l) ∧
    ∀ m1 ∈ file_open_mode.modes, ∀ m2 ∈ file_open_mode.modes,
      ∀ s1 n1 r1 l1 s2 n2 r2 l2 : Bool,
      m1 ||| file_open_mode.aux_bits s1 n1 r1 l1
        = m2 ||| file_open_mode.aux_bits s2 n2 r2 l2 → m1 = m2 := by
  have hmask : ∀ m ∈ file_open_mode.modes, ∀ s n r l : Bool,
      (m ||| file_open_mode.aux_bits s n r l) &&& file_open_mode.rw_mask = m ∧
      (m ||| file_open_mode.aux_bits s n r l) &&& bit_not file_open_mode.rw_mask
        = file_open_mode.aux_bits s n r l := by decide
  refine ⟨by decide, ?_, by decide, hmask, ?_⟩
  · intro k
    have h3 : file_open_mode.rw_mask = 2 ^ 2 - 1 := by decide
    rw [h3, Nat.testBit_two_pow_sub_one]
  · intro m1 h1 m2 h2 s1 n1 r1 l1 s2 n2 r2 l2 heq
    rw [← (hmask m1 h1 s1 n1 r1 l1).1, heq, (hmask m2 h2 s2 n2 r2 l2).1]

/-- Witness of C9: in `write_only | sparse | locked` the mask gives back
`write_only` and its complement gives back `sparse | locked`. -/
theorem rw_mask_separates_modes_witness :
    (file_open_mode.write_only ||| file_open_mode.aux_bits true false false true)
        &&& file_open_mode.rw_mask = file_open_mode.write_only ∧
    (file_open_mode.write_only ||| file_open_mode.aux_bits true false false true)
        &&& bit_not file_open_mode.rw_mask
      = file_open_mode.aux_bits true false false true :=
  rw_mask_separates_modes.2.2.2.1 file_open_mode.write_only (by decide)
    true false false true

set_option maxRecDepth 100000 in
/-- Setting or clearing one job flag does not touch another one: both identities,
checked on all 8-bit words and all pairs of different flags. -/
theorem set_clear_keeps : ∀ f, f < 256 → ∀ a ∈ flags_t.all, ∀ b ∈ flags_t.all, a ≠ b →
    (f ||| a) &&& b = f &&& b ∧ (f &&& bit_not a) &&& b = f &&& b := by
  decide

/-- C10: `sequential_access`, `cache_hit` and `volatile_read` are non-zero, fit in
the 8-bit flags word and are pairwise disjoint bits; for every 8-bit word `f` and
every two different flags `a`, `b`, `(f | a) & b == f & b` and
`(f & ~a) & b == f & b`. -/
theorem job_flags_independent :
    (∀ a ∈ flags_t.all, a ≠ 0 ∧ a < 256) ∧
    (∀ a ∈ flags_t.all, ∀ b ∈ flags_t.all, a ≠ b → a &&& b = 0) ∧
    ∀ f, f < 256 → ∀ a ∈ flags_t.all, ∀ b ∈ flags_t.all, a ≠ b →
      (f ||| a) &&& b = f &&& b ∧ (f &&& bit_not a) &&& b = f &&& b := by
  have h1 : ∀ a ∈ flags_t.all, a ≠ 0 ∧ a < 256 := by decide
  have h2 : ∀ a ∈ flags_t.all, ∀ b ∈ flags_t.all, a ≠ b → a &&& b = 0 := by decide
  exact ⟨h1, h2, set_clear_keeps⟩

/-- Witness of C10: setting or clearing `cache_hit` in the word `0x13` leaves
`volatile_read` as it was. -/
theorem job_flags_independent_witness :
    (0x13 ||| flags_t.cache_hit) &&& flags_t.volatile_read
      = 0x13 &&& flags_t.volatile_read ∧
    (0x13 &&& bit_not flags_t.cache_hit) &&& flags_t.volatile_read
      = 0x13 &&& flags_t.volatile_read :=
  job_flags_independent.2.2 0x13 (by decide) flags_t.cache_hit (by decide)
    flags_t.volatile_read (by decide) (by decide)

/-! ## Self move assignment -/

/-- C14: self move assignment `a = std::move(a)` of an active holder `(idx, d)` logs
exactly the one call `d.remove_torrent(idx)` and leaves the holder empty, so that
its later destruction logs nothing more; on an empty holder it leaves the whole
state as it is. -/
theorem self_move_assign (w : world) (p : Nat) (idx : storage_index_t) :
    (∀ d, w.obj p = some ⟨some d, idx⟩ →
      ∃ w1, move_assign p p w = some w1 ∧
        w1.log = w.log ++ [(d, disk_call.remove_torrent idx)] ∧
        (w1.obj p).map storage_holder.operator_bool = some false ∧
        ∃ w2, dtor p w1 = some w2 ∧ w2.log = w1.log) ∧
    (w.obj p = some ⟨none, idx⟩ → move_assign p p w = some w) := by
  constructor
  · intro d hp
    have h0 : ({ w with log := w.log ++ removal_of ⟨some d, idx⟩ } : world).obj p
        = some ⟨some d, idx⟩ := hp
    have he := obj_store_same (⟨none, idx⟩ : storage_holder) h0
    refine ⟨_, move_assign_self hp, rfl, ?_, ?_⟩
    · rw [he]; rfl
    · exact ⟨_, dtor_eq he, by simp [removal_of, world.store, world.free]⟩
  · intro hp
    rw [move_assign_self hp]
    have h1 : ({ w with log := w.log ++ removal_of ⟨none, idx⟩ } : world) = w := by
      simp [removal_of]
    rw [h1, store_self hp]

/-- Witness of C14: the holder for index 7 of dispatcher 1 assigned to itself, and
the default-constructed holder assigned to itself. -/
theorem self_move_assign_witness :
    (∃ w1, move_assign 0 0 (ctor 7 1 {}) = some w1 ∧
        w1.log = (ctor 7 1 {}).log ++ [(1, disk_call.remove_torrent 7)] ∧
        (w1.obj 0).map storage_holder.operator_bool = some false ∧
        ∃ w2, dtor 0 w1 = some w2 ∧ w2.log = w1.log) ∧
    move_assign 0 0 (default_ctor {}) = some (default_ctor {}) :=
  ⟨(self_move_assign (ctor 7 1 {}) 0 7).1 1 (by decide),
    (self_move_assign (default_ctor {}) 0 0).2 (by decide)⟩

/-! ## `chunk_string` -/

/-- The loop of `chunk_string`, entered for chunk number `k` with `i = 10 * 2 ^ k`
and a string below `2 ^ 63` bytes, ends and appends the blocks of the doubling
schedule and the closing `"0\r\n\r\n"`. -/
theorem chunk_loop_eq : ∀ (f fuel k i : Nat) (s ret : std_string),
    s.length ≤ f → f < fuel → s.length < 2 ^ 63 → (s ≠ [] → i = 10 * 2 ^ k) →
    chunk_loop fuel i s ret = some (ret ++ frame (cut (schedule f k s.length) s)) := by
  intro f
  induction f with
  | zero =>
    intro fuel k i s ret hs hf _ _
    have hnil : s = [] := List.length_eq_zero.mp (Nat.le_zero.mp hs)
    subst hnil
    cases fuel with
    | zero => omega
    | succ fuel => simp [chunk_loop, schedule, cut, frame]
  | succ f ih =>
    intro fuel k i s ret hs hf hlen hi
    cases fuel with
    | zero => omega
    | succ fuel =>
      by_cases hnil : s = []
      · subst hnil
        simp [chunk_loop, schedule, cut, frame]
      · have hi1 := hi hnil
        have hpos : 0 < s.length := List.length_pos.mpr hnil
        have hipos : 0 < 10 * 2 ^ k := by positivity
        have hne : s.length ≠ 0 := by omega
        have hmin_pos : 0 < min (10 * 2 ^ k) s.length := by
          rw [Nat.lt_min]; exact ⟨hipos, hpos⟩
        have hmin_le : min (10 * 2 ^ k) s.length ≤ s.length := Nat.min_le_right _ _
        have hmod : (min (10 * 2 ^ k) s.length * 2) % 2 ^ 64
            = min (10 * 2 ^ k) s.length * 2 := Nat.mod_eq_of_lt (by omega)
        have hempty : s.isEmpty = false := by
          cases s with
          | nil => exact absurd rfl hnil
          | cons _ _ => rfl
        subst hi1
        have hrec := ih fuel (k + 1) (min (10 * 2 ^ k) s.length * 2)
          (s.drop (min (10 * 2 ^ k) s.length))
          (ret ++ chunk_header (min (10 * 2 ^ k) s.length)
            ++ s.take (min (10 * 2 ^ k) s.length))
          (by rw [List.length_drop]; omega) (by omega)
          (by rw [List.length_drop]; omega)
          (by
            intro hd
            have hlt : min (10 * 2 ^ k) s.length < s.length := by
              by_contra hge
              apply hd
              apply List.drop_eq_nil_of_le
              omega
            have : min (10 * 2 ^ k) s.length = 10 * 2 ^ k := by
              rw [Nat.min_def] at hlt ⊢
              split at hlt <;> simp_all
            rw [this, pow_succ]; ring)
        simp only [chunk_loop, hempty, Bool.false_eq_true, if_false, hmod]
        rw [hrec]
        simp only [schedule, hne, if_false, cut, frame, block, List.length_take,
          List.length_drop, List.append_assoc, Nat.min_assoc, Nat.min_self]

/-- The value of a digit character is the digit. -/
theorem hex_val_digitChar (v : Nat) (hv : v < 16) : hex_val (Nat.digitChar v) = some v := by
  interval_cases v <;> rfl

/-- A carriage return is not a hexadecimal digit. -/
theorem hex_val_cr : hex_val '\r' = none := by decide

theorem toDigitsCore_append (fuel : Nat) : ∀ (n : Nat) (ds t : List Char),
    Nat.toDigitsCore 16 fuel n ds ++ t = Nat.toDigitsCore 16 fuel n (ds ++ t) := by
  induction fuel with
  | zero => intro n ds t; rfl
  | succ fuel ih =>
    intro n ds t
    simp only [Nat.toDigitsCore]
    split
    · rfl
    · rw [ih]; rfl

theorem read_hex_toDigitsCore (fuel : Nat) : ∀ (n : Nat) (ds : List Char), n < fuel →
    read_hex (Nat.toDigitsCore 16 fuel n ds) 0 = read_hex ds n := by
  induction fuel with
  | zero => intro n ds h; omega
  | succ fuel ih =>
    intro n ds h
    simp only [Nat.toDigitsCore]
    have hd := hex_val_digitChar (n % 16) (Nat.mod_lt _ (by decide))
    split
    · rename_i h0
      have : n % 16 = n := by omega
      simp only [read_hex, hd, Nat.zero_mul, Nat.zero_add]
      rw [this]
    · rename_i h0
      have hlt : n / 16 < fuel := by omega
      rw [ih (n / 16) _ hlt]
      simp only [read_hex, hd]
      congr 1
      omega

theorem head_toDigitsCore (fuel : Nat) : ∀ (n : Nat) (ds : List Char), n < fuel →
    ∃ v t, v < 16 ∧ Nat.toDigitsCore 16 fuel n ds = Nat.digitChar v :: t := by
  induction fuel with
  | zero => intro n ds h; omega
  | succ fuel ih =>
    intro n ds h
    simp only [Nat.toDigitsCore]
    split
    · exact ⟨n % 16, ds, Nat.mod_lt _ (by decide), rfl⟩
    · exact ih (n / 16) _ (by omega)

/-- Reading a printed number followed by a carriage return gives the number back. -/
theorem read_hex_toDigits (n : Nat) (t : std_string) :
    read_hex (Nat.toDigits 16 n ++ '\r' :: t) 0 = (n, '\r' :: t) := by
  unfold Nat.toDigits
  rw [toDigitsCore_append, read_hex_toDigitsCore _ _ _ (Nat.lt_succ_self n)]
  simp [read_hex, hex_val_cr]

theorem head_toDigits (n : Nat) (t : std_string) :
    ∃ v, (Nat.toDigits 16 n ++ t).head?.bind hex_val = some v := by
  obtain ⟨v, u, hv, hu⟩ := head_toDigitsCore (n + 1) n [] (Nat.lt_succ_self n)
  refine ⟨v, ?_⟩
  unfold Nat.toDigits
  rw [hu]
  simp [hex_val_digitChar v hv]

theorem frame_length (cs : List std_string) : cs.length + 5 ≤ (frame cs).length := by
  induction cs with
  | nil => simp [frame, last_chunk]
  | cons c cs ih =>
    simp only [frame, block, chunk_header, List.length_append, List.length_cons,
      List.length_nil]
    omega

/-- Decoding the blocks written for non-empty pieces gives the pieces back. -/
theorem decode_blocks_frame : ∀ (cs : List std_string) (fuel : Nat), cs.length < fuel →
    (∀ c ∈ cs, 0 < c.length ∧ c.length < 2 ^ 32) →
    decode_blocks fuel (frame cs) = some cs := by
  intro cs
  induction cs with
  | nil =>
    intro fuel hf _
    cases fuel with
    | zero => simp at hf
    | succ fuel => rfl
  | cons c cs ih =>
    intro fuel hf hall
    cases fuel with
    | zero => simp at hf
    | succ fuel =>
      obtain ⟨hpos, hlt⟩ := hall c (List.mem_cons_self _ _)
      have hrec := ih fuel (by simpa using hf)
        (fun x hx => hall x (List.mem_cons_of_mem _ hx))
      have hmod : c.length % 2 ^ 32 = c.length := Nat.mod_eq_of_lt hlt
      have hshape : frame (c :: cs)
          = Nat.toDigits 16 c.length ++ '\r' :: '\n' :: (c ++ frame cs) := by
        simp only [frame, block, chunk_header, hmod, List.append_assoc, List.cons_append,
          List.nil_append]
      obtain ⟨v, hv⟩ := head_toDigits c.length ('\r' :: '\n' :: (c ++ frame cs))
      rw [hshape]
      simp only [decode_blocks, hv, read_hex_toDigits]
      have hn : c.length ≠ 0 := by omega
      simp [hn, hrec]

theorem flatten_cut : ∀ (L : List Nat) (s : std_string), L.sum = s.length →
    (cut L s).flatten = s := by
  intro L
  induction L with
  | nil =>
    intro s h
    simp only [List.sum_nil] at h
    simp [cut, List.length_eq_zero.mp h.symm]
  | cons n ns ih =>
    intro s h
    simp only [List.sum_cons] at h
    simp only [cut, List.flatten_cons]
    rw [ih (s.drop n) (by rw [List.length_drop]; omega), List.take_append_drop]

theorem map_length_cut : ∀ (L : List Nat) (s : std_string), L.sum ≤ s.length →
    (cut L s).map List.length = L := by
  intro L
  induction L with
  | nil => intro s _; rfl
  | cons n ns ih =>
    intro s h
    simp only [List.sum_cons] at h
    simp only [cut, List.map_cons, List.length_take]
    rw [ih (s.drop n) (by rw [List.length_drop]; omega)]
    congr 1
    omega

/-- The schedule emits everything. -/
theorem schedule_sum : ∀ (f k rem : Nat), rem ≤ f → (schedule f k rem).sum = rem := by
  intro f
  induction f with
  | zero => intro k rem h; simp [schedule, Nat.le_zero.mp h]
  | succ f ih =>
    intro k rem h
    by_cases h0 : rem = 0
    · simp [schedule, h0]
    · simp only [schedule, h0, if_false, List.sum_cons]
      have hpos : 0 < 10 * 2 ^ k := by positivity
      rw [ih (k + 1) _ (by omega)]
      omega

/-- Chunk number `j` of the schedule: its size is the minimum of `10 * 2 ^ (k + j)`
and what is left, and it is positive. -/
theorem schedule_get : ∀ (f k rem j v : Nat), (schedule f k rem)[j]? = some v →
    v = min (10 * 2 ^ (k + j)) (rem - ((schedule f k rem).take j).sum) ∧ 0 < v := by
  intro f
  induction f with
  | zero => intro k rem j v h; simp [schedule] at h
  | succ f ih =>
    intro k rem j v h
    by_cases h0 : rem = 0
    · simp [schedule, h0] at h
    · simp only [schedule, h0, if_false] at h ⊢
      have hpos : 0 < 10 * 2 ^ k := by positivity
      cases j with
      | zero =>
        simp only [List.getElem?_cons_zero, Option.some.injEq] at h
        subst h
        simp only [List.take_zero, List.sum_nil, Nat.sub_zero, Nat.add_zero]
        exact ⟨trivial, by omega⟩
      | succ j =>
        simp only [List.getElem?_cons_succ] at h
        obtain ⟨h1, h2⟩ := ih (k + 1) _ j v h
        refine ⟨?_, h2⟩
        have e : k + (j + 1) = k + 1 + j := by omega
        rw [h1, e]
        simp only [List.take_succ_cons, List.sum_cons, Nat.sub_add_eq]

/-- Every chunk of the schedule but the last is full. -/
theorem schedule_full : ∀ (f k rem j v : Nat), (schedule f k rem)[j]? = some v →
    j + 1 < (schedule f k rem).length → v = 10 * 2 ^ (k + j) := by
  intro f
  induction f with
  | zero => intro k rem j v h; simp [schedule] at h
  | succ f ih =>
    intro k rem j v h hj
    by_cases h0 : rem = 0
    · simp [schedule, h0] at h
    · simp only [schedule, h0, if_false] at h hj
      cases j with
      | zero =>
        simp only [List.getElem?_cons_zero, Option.some.injEq] at h
        subst h
        simp only [List.length_cons, Nat.zero_add, Nat.lt_add_left_iff_pos] at hj
        have hne : schedule f (k + 1) (rem - min (10 * 2 ^ k) rem) ≠ [] :=
          List.ne_nil_of_length_pos hj
        have hrem : rem - min (10 * 2 ^ k) rem ≠ 0 := by
          intro hz
          apply hne
          rw [hz]
          cases f <;> simp [schedule]
        simp only [Nat.add_zero]
        omega
      | succ j =>
        simp only [List.getElem?_cons_succ] at h
        simp only [List.length_cons, Nat.add_lt_add_iff_right] at hj
        have e : k + (j + 1) = k + 1 + j := by omega
        rw [e]
        exact ih (k + 1) _ j v h hj

theorem mem_le_sum : ∀ (L : List Nat) (v : Nat), v ∈ L → v ≤ L.sum := by
  intro L
  induction L with
  | nil => intro v h; simp at h
  | cons n ns ih =>
    intro v h
    simp only [List.sum_cons]
    rcases List.mem_cons.mp h with h1 | h1
    · omega
    · have := ih v h1
      omega

/-- The pieces the doubling schedule cuts a string into are non-empty and no
longer than the string. -/
theorem cut_chunk_sizes_bounds (s b : std_string)
    (hb : b ∈ cut (chunk_sizes s.length) s) : 0 < b.length ∧ b.length ≤ s.length := by
  have hsum : (chunk_sizes s.length).sum = s.length := schedule_sum _ 0 _ (Nat.le_refl _)
  have hmap := map_length_cut (chunk_sizes s.length) s (Nat.le_of_eq hsum)
  have hmem : b.length ∈ chunk_sizes s.length := by
    rw [← hmap]
    exact List.mem_map_of_mem _ hb
  obtain ⟨j, hj⟩ := List.mem_iff_getElem?.mp hmem
  refine ⟨(schedule_get _ 0 _ j _ hj).2, ?_⟩
  have := mem_le_sum _ _ hmem
  omega

/-- What `chunk_string` returns: the blocks of the doubling schedule. -/
theorem chunk_string_eq (s : std_string) (hlen : s.length < 2 ^ 63) (fuel : Nat)
    (hf : s.length < fuel) :
    chunk_string fuel s = some (frame (cut (chunk_sizes s.length) s)) := by
  have := chunk_loop_eq s.length fuel 0 10 s [] (Nat.le_refl _) hf hlen (fun _ => by simp)
  simpa [chunk_string, chunk_sizes] using this

/-- The first byte of framed blocks is a hexadecimal digit. -/
theorem frame_head (cs : List std_string) :
    ∃ v, (frame cs).head?.bind hex_val = some v := by
  cases cs with
  | nil => exact ⟨0, by decide⟩
  | cons c cs =>
    have := head_toDigits (c.length % 2 ^ 32) (['\r', '\n'] ++ c ++ frame cs)
    simpa [frame, block, chunk_header] using this

/-- A non-empty block written by `chunk_string` is never accepted as the start of an
HTTP/1.1 chunked body: the CRLF that closes the chunk data is not there. -/
theorem decode_http_chunked_frame (c : std_string) (cs : List std_string) (fuel : Nat)
    (hpos : 0 < c.length) (hlt : c.length < 2 ^ 32) :
    decode_http_chunked fuel (frame (c :: cs)) = none := by
  cases fuel with
  | zero => rfl
  | succ fuel =>
    have hmod : c.length % 2 ^ 32 = c.length := Nat.mod_eq_of_lt hlt
    have hshape : frame (c :: cs)
        = Nat.toDigits 16 c.length ++ '\r' :: '\n' :: (c ++ frame cs) := by
      simp only [frame, block, chunk_header, hmod, List.append_assoc, List.cons_append,
        List.nil_append]
    obtain ⟨v, hv⟩ := head_toDigits c.length ('\r' :: '\n' :: (c ++ frame cs))
    obtain ⟨u, hu⟩ := frame_head cs
    have hn : c.length ≠ 0 := by omega
    have htail : List.take 2 (frame cs) ≠ ['\r', '\n'] := by
      intro h2
      cases hfr : frame cs with
      | nil => rw [hfr] at h2; simp at h2
      | cons x t =>
        rw [hfr] at h2 hu
        have hx : x = '\r' := by
          cases t with
          | nil => simp at h2
          | cons y t => simp at h2; exact h2.1
        subst hx
        simp [hex_val_cr] at hu
    rw [hshape]
    simp only [decode_http_chunked, hv, read_hex_toDigits]
    simp [hn, htail]

/-- The framed blocks, written out: before each piece its length modulo `2 ^ 32` in
lowercase hexadecimal and `"\r\n"`, after the last piece `"0\r\n\r\n"`. -/
theorem frame_eq_flatten (cs : List std_string) :
    frame cs = (cs.map fun c =>
        Nat.toDigits 16 (c.length % 2 ^ 32) ++ ['\r', '\n'] ++ c).flatten
      ++ ['0', '\r', '\n', '\r', '\n'] := by
  induction cs with
  | nil => rfl
  | cons c cs ih =>
    simp only [frame, block, chunk_header, ih, List.map_cons, List.flatten_cons,
      List.append_assoc]

/-- C15: on a string below `2 ^ 63` bytes (every `std::string` of a 64-bit
build) `chunk_string` terminates, whatever bound above the length is given, and
returns the chunks of the doubling schedule, each written as its length modulo
`2 ^ 32` in lowercase hexadecimal, `"\r\n"` and its data bytes, followed by
`"0\r\n\r\n"`: chunk `k` carries `min (10 * 2 ^ k) (bytes not yet emitted)` bytes
and is non-empty, every chunk but the last carries `10 * 2 ^ k` bytes, the chunks
together are the whole string; below `2 ^ 32` bytes every header is the length of
its chunk and decoding the output gives exactly these chunks; the empty string
yields exactly `"0\r\n\r\n"`; for 1337 bytes the sizes are
10, 20, 40, 80, 160, 320, 640, 67. -/
theorem chunk_string_schedule (s : std_string) (hlen : s.length < 2 ^ 63) :
    (∀ fuel, s.length < fuel →
      chunk_string fuel s = some
        (((cut (chunk_sizes s.length) s).map fun c =>
            Nat.toDigits 16 (c.length % 2 ^ 32) ++ ['\r', '\n'] ++ c).flatten
          ++ ['0', '\r', '\n', '\r', '\n'])) ∧
    (cut (chunk_sizes s.length) s).map List.length = chunk_sizes s.length ∧
    (cut (chunk_sizes s.length) s).flatten = s ∧
    (∀ k v, (chunk_sizes s.length)[k]? = some v →
      v = min (10 * 2 ^ k) (s.length - ((chunk_sizes s.length).take k).sum) ∧ 0 < v ∧
      (k + 1 < (chunk_sizes s.length).length → v = 10 * 2 ^ k)) ∧
    (s.length < 2 ^ 32 → ∀ fuel, s.length < fuel →
      ∃ out, chunk_string fuel s = some out ∧
        out = ((cut (chunk_sizes s.length) s).map fun c =>
            Nat.toDigits 16 c.length ++ ['\r', '\n'] ++ c).flatten
          ++ ['0', '\r', '\n', '\r', '\n'] ∧
        decode_chunked out = some (cut (chunk_sizes s.length) s)) ∧
    (∀ fuel, chunk_string (fuel + 1) [] = some ['0', '\r', '\n', '\r', '\n']) ∧
    chunk_sizes 1337 = [10, 20, 40, 80, 160, 320, 640, 67] := by
  have hsum : (chunk_sizes s.length).sum = s.length := schedule_sum _ 0 _ (Nat.le_refl _)
  have hb := cut_chunk_sizes_bounds s
  refine ⟨fun fuel hf => ?_, map_length_cut _ s (Nat.le_of_eq hsum),
    flatten_cut _ s hsum, ?_, ?_, fun fuel => rfl, by decide⟩
  · rw [chunk_string_eq s hlen fuel hf, frame_eq_flatten]
  · intro k v hk
    have h1 := schedule_get _ 0 _ k v hk
    have h2 := schedule_full _ 0 _ k v hk
    simp only [Nat.zero_add] at h1 h2
    exact ⟨h1.1, h1.2, h2⟩
  · intro h32 fuel hf
    refine ⟨_, chunk_string_eq s hlen fuel hf, ?_, ?_⟩
    · rw [frame_eq_flatten]
      congr 2
      apply List.map_congr_left
      intro c hc
      have hmod : c.length % 2 ^ 32 = c.length :=
        Nat.mod_eq_of_lt (Nat.lt_of_le_of_lt (hb c hc).2 h32)
      rw [hmod]
    · unfold decode_chunked
      apply decode_blocks_frame
      · have := frame_length (cut (chunk_sizes s.length) s)
        omega
      · intro c hc
        exact ⟨(hb c hc).1, Nat.lt_of_le_of_lt (hb c hc).2 h32⟩

/-- Witness of C15: the twelve bytes `abcdefghijkl` are returned as a chunk of ten
bytes announced by `a` and a chunk of two bytes announced by `2`, and decoding
that output gives the two chunks back. -/
theorem chunk_string_schedule_witness :
    chunk_string 13 ['a', 'b', 'c', 'd', 'e', 'f', 'g', 'h', 'i', 'j', 'k', 'l']
      = some ['a', '\r', '\n', 'a', 'b', 'c', 'd', 'e', 'f', 'g', 'h', 'i', 'j',
          '2', '\r', '\n', 'k', 'l', '0', '\r', '\n', '\r', '\n'] ∧
    ∃ out, chunk_string 13 ['a', 'b', 'c', 'd', 'e', 'f', 'g', 'h', 'i', 'j', 'k', 'l']
        = some out ∧
      out = ['a', '\r', '\n', 'a', 'b', 'c', 'd', 'e', 'f', 'g', 'h', 'i', 'j',
          '2', '\r', '\n', 'k', 'l', '0', '\r', '\n', '\r', '\n'] ∧
      decode_chunked out
        = some [['a', 'b', 'c', 'd', 'e', 'f', 'g', 'h', 'i', 'j'], ['k', 'l']] :=
  ⟨(chunk_string_schedule ['a', 'b', 'c', 'd', 'e', 'f', 'g', 'h', 'i', 'j', 'k', 'l']
      (by decide)).1 13 (by decide),
    (chunk_string_schedule ['a', 'b', 'c', 'd', 'e', 'f', 'g', 'h', 'i', 'j', 'k', 'l']
      (by decide)).2.2.2.2.1 (by decide) 13 (by decide)⟩

/-- C11: for a string `s` whose length is in `int` range, `chunk_string` returns a
sequence of blocks, each a lowercase hexadecimal length `n > 0`, `"\r\n"` and
exactly `n` data bytes, ended by `"0\r\n\r\n"`; decoding that format gives the
blocks back, their data bytes concatenated in order are exactly `s`, and the block
lengths sum to the length of `s`. -/
theorem decode_chunk_string (s : std_string) (hlen : s.length < 2 ^ 31) (fuel : Nat)
    (hf : s.length < fuel) :
    ∃ out blocks, chunk_string fuel s = some out ∧
      out = frame blocks ∧
      (∀ b ∈ blocks, 0 < b.length ∧
        block b = Nat.toDigits 16 b.length ++ ['\r', '\n'] ++ b) ∧
      decode_chunked out = some blocks ∧
      blocks.flatten = s ∧
      (blocks.map List.length).sum = s.length := by
  have hsum : (chunk_sizes s.length).sum = s.length := schedule_sum _ 0 _ (Nat.le_refl _)
  have hb := cut_chunk_sizes_bounds s
  refine ⟨_, cut (chunk_sizes s.length) s, chunk_string_eq s (by omega) fuel hf, rfl,
    ?_, ?_, flatten_cut _ s hsum, ?_⟩
  · intro b hmem
    obtain ⟨h1, h2⟩ := hb b hmem
    have hmod : b.length % 2 ^ 32 = b.length := Nat.mod_eq_of_lt (by omega)
    exact ⟨h1, by simp only [block, chunk_header, hmod]⟩
  · unfold decode_chunked
    apply decode_blocks_frame
    · have := frame_length (cut (chunk_sizes s.length) s)
      omega
    · intro c hc
      obtain ⟨h1, h2⟩ := hb c hc
      exact ⟨h1, by omega⟩
  · rw [map_length_cut _ s (Nat.le_of_eq hsum), hsum]

/-- Witness of C11: 35 bytes are returned as the blocks `a`, `14`, `5` (hexadecimal
lengths) and decoding them gives the 35 bytes back. -/
theorem decode_chunk_string_witness :
    ∃ out blocks, chunk_string 36 (List.replicate 35 'x') = some out ∧
      out = frame blocks ∧
      (∀ b ∈ blocks, 0 < b.length ∧
        block b = Nat.toDigits 16 b.length ++ ['\r', '\n'] ++ b) ∧
      decode_chunked out = some blocks ∧
      blocks.flatten = List.replicate 35 'x' ∧
      (blocks.map List.length).sum = (List.replicate 35 'x').length :=
  decode_chunk_string (List.replicate 35 'x') (by decide) 36 (by decide)

/-- C12 fails on the code: for the one-byte string `a`, `chunk_string` returns
`"1\r\na0\r\n\r\n"`, without the CRLF that closes the chunk data; the HTTP/1.1
chunked body carrying `a` is `"1\r\na\r\n0\r\n\r\n"`; a decoder of chunked
bodies accepts the latter and rejects what `chunk_string` returns. -/
theorem chunk_string_omits_chunk_crlf :
    chunk_string 2 ['a'] = some ['1', '\r', '\n', 'a', '0', '\r', '\n', '\r', '\n'] ∧
    http_chunked [['a']]
      = ['1', '\r', '\n', 'a', '\r', '\n', '0', '\r', '\n', '\r', '\n'] ∧
    decode_http_chunked 11 (http_chunked [['a']]) = some [['a']] ∧
    decode_http_chunked 9 ['1', '\r', '\n', 'a', '0', '\r', '\n', '\r', '\n'] = none := by
  decide

/-- What `chunk_string` returns for a non-empty string (length in `int` range) is
never accepted by the decoder of HTTP/1.1 chunked bodies. -/
theorem chunk_string_never_http_chunked (s : std_string) (hne : s ≠ [])
    (hlen : s.length < 2 ^ 31) (fuel fuel2 : Nat) (hf : s.length < fuel) :
    ∃ out, chunk_string fuel s = some out ∧ decode_http_chunked fuel2 out = none := by
  refine ⟨_, chunk_string_eq s (by omega) fuel hf, ?_⟩
  have hb := cut_chunk_sizes_bounds s
  cases hc : cut (chunk_sizes s.length) s with
  | nil =>
    have hfl := flatten_cut (chunk_sizes s.length) s (schedule_sum _ 0 _ (Nat.le_refl _))
    rw [hc] at hfl
    exact absurd hfl.symm hne
  | cons c cs =>
    obtain ⟨h1, h2⟩ := hb c (by rw [hc]; exact List.mem_cons_self _ _)
    exact decode_http_chunked_frame c cs fuel2 h1 (by omega)

/-! ## Lookup in the registry -/

theorem after_snoc (policy : index_policy) (calls : List disk_call) (c : disk_call) :
    registry.after policy (calls ++ [c])
      = (registry.after policy calls).receive policy c := by
  simp [registry.after, List.foldl_append]

theorem received_receive (policy : index_policy) (r : registry) (c : disk_call) :
    (r.receive policy c).received = r.received ++ [c] := by
  cases c <;> rfl

/-- The registry remembers the calls it received. -/
theorem received_after (policy : index_policy) (calls : List disk_call) :
    (registry.after policy calls).received = calls := by
  induction calls using List.reverseRecOn with
  | nil => rfl
  | append_singleton l c ih => rw [after_snoc, received_receive, ih]

/-- What a lookup returns after one more call. -/
theorem get_torrent_snoc (policy : index_policy) (calls : List disk_call) (c : disk_call)
    (idx : storage_index_t) :
    (registry.after policy (calls ++ [c])).get_torrent idx =
      match c with
      | disk_call.new_torrent =>
        if idx = policy calls then some ⟨calls.length⟩
        else (registry.after policy calls).get_torrent idx
      | disk_call.remove_torrent j =>
        if idx = j then none else (registry.after policy calls).get_torrent idx
      | disk_call.get_torrent _ => (registry.after policy calls).get_torrent idx := by
  rw [after_snoc]
  cases c with
  | new_torrent =>
    simp only [registry.receive, registry.new_torrent, registry.get_torrent,
      received_after]
  | remove_torrent j => rfl
  | get_torrent j => rfl

/-- A registered index stays registered, with the same record, as long as no
`remove_torrent` for it is received: a fresh allocation cannot issue it meanwhile. -/
theorem stays_registered (policy : index_policy) (hfresh : fresh_policy policy)
    (hist : List disk_call) (idx : storage_index_t) (x : storage_interface)
    (hx : (registry.after policy hist).get_torrent idx = some x) (mid : List disk_call) :
    (∀ c ∈ mid, c ≠ disk_call.remove_torrent idx) →
    (registry.after policy (hist ++ mid)).get_torrent idx = some x := by
  induction mid using List.reverseRecOn with
  | nil => intro _; simpa using hx
  | append_singleton l c ih =>
    intro hno
    have hprev := ih fun c1 h1 => hno c1 (List.mem_append_left _ h1)
    have hc := hno c (List.mem_append_right _ (List.mem_singleton_self _))
    rw [← List.append_assoc, get_torrent_snoc]
    cases c with
    | new_torrent =>
      have hne : idx ≠ policy (hist ++ l) := by
        intro e
        have := hfresh (hist ++ l)
        rw [← e, hprev] at this
        exact Option.noConfusion this
      simp only [hne, if_false]
      exact hprev
    | remove_torrent j =>
      have hj : idx ≠ j := by
        intro e
        subst e
        exact hc rfl
      simp only [hj, if_false]
      exact hprev
    | get_torrent j => exact hprev

/-- An unregistered index stays unregistered as long as no registration is issued
that index. -/
theorem stays_absent (policy : index_policy) (hist : List disk_call)
    (idx : storage_index_t)
    (hx : (registry.after policy hist).get_torrent idx = none) (post : List disk_call) :
    (∀ post1 post2, post = post1 ++ disk_call.new_torrent :: post2 →
      policy (hist ++ post1) ≠ idx) →
    (registry.after policy (hist ++ post)).get_torrent idx = none := by
  induction post using List.reverseRecOn with
  | nil => intro _; simpa using hx
  | append_singleton l c ih =>
    intro hno
    have hprev := ih fun post1 post2 h =>
      hno post1 (post2 ++ [c]) (by rw [h]; simp)
    rw [← List.append_assoc, get_torrent_snoc]
    cases c with
    | new_torrent =>
      have hne : idx ≠ policy (hist ++ l) := fun e => hno l [] rfl e.symm
      simp only [hne, if_false]
      exact hprev
    | remove_torrent j =>
      simp only []
      split
      · rfl
      · exact hprev
    | get_torrent j => exact hprev

/-- The counter never issues a registered index: all registered indices are below
the number of registrations. -/
theorem counter_policy_fresh : fresh_policy counter_policy := by
  have key : ∀ calls j, counter_policy calls ≤ j →
      (registry.after counter_policy calls).get_torrent j = none := by
    intro calls
    induction calls using List.reverseRecOn with
    | nil => intro j _; rfl
    | append_singleton l c ih =>
      intro j hj
      have hmono : counter_policy l ≤ counter_policy (l ++ [c]) := by
        simp [counter_policy, List.countP_append]
      rw [get_torrent_snoc]
      cases c with
      | new_torrent =>
        have hlt : counter_policy l < j := by
          have : counter_policy (l ++ [disk_call.new_torrent]) = counter_policy l + 1 := by
            simp [counter_policy, List.countP_append]
          exact Nat.lt_of_lt_of_le (this ▸ Nat.lt_succ_self _) hj
        simp only [Nat.ne_of_gt hlt, if_false]
        exact ih j (Nat.le_of_lt hlt)
      | remove_torrent i =>
        simp only []
        split
        · rfl
        · exact ih j (Nat.le_trans hmono hj)
      | get_torrent i => exact ih j (Nat.le_trans hmono hj)
  intro calls
  exact key calls _ (Nat.le_refl _)

/-- With the counter no later registration is issued an index that was issued
before. -/
theorem counter_policy_never_reissues (hist post1 : List disk_call) :
    counter_policy (hist ++ disk_call.new_torrent :: post1) ≠ counter_policy hist := by
  have : counter_policy hist < counter_policy (hist ++ disk_call.new_torrent :: post1) := by
    simp only [counter_policy, List.countP_append, List.countP_cons, decide_True, if_true]
    exact Nat.lt_of_lt_of_le (Nat.lt_succ_self _) (by
      rw [Nat.add_comm (List.countP _ post1) 1, ← Nat.add_assoc]
      exact Nat.le_add_right _ _)
  exact Nat.ne_of_gt this

theorem lt_end_index : ∀ (l : List storage_index_t) (x : storage_index_t),
    x ∈ l → x < end_index l := by
  intro l
  induction l with
  | nil => intro x h; simp at h
  | cons y t ih =>
    intro x h
    have hcons : end_index (y :: t) = max (y + 1) (end_index t) := rfl
    rw [hcons]
    rcases List.mem_cons.mp h with h1 | h1
    · subst h1
      exact Nat.lt_of_lt_of_le (Nat.lt_succ_self _) (Nat.le_max_left _ _)
    · exact Nat.lt_of_lt_of_le (ih x h1) (Nat.le_max_right _ _)

/-- The allocation one past the largest registered index never issues a
registered index either, although it issues removed indices again. -/
theorem end_index_policy_fresh : fresh_policy end_index_policy := by
  have key : ∀ calls j, (registry.after end_index_policy calls).get_torrent j ≠ none →
      j ∈ registered_after calls := by
    intro calls
    induction calls using List.reverseRecOn with
    | nil => intro j h; exact absurd rfl h
    | append_singleton l c ih =>
      intro j h
      rw [get_torrent_snoc] at h
      cases c with
      | new_torrent =>
        have hstep : registered_after (l ++ [disk_call.new_torrent])
            = end_index (registered_after l) :: registered_after l := by
          simp [registered_after, List.foldl_append]
        rw [hstep]
        simp only [] at h
        by_cases hj : j = end_index_policy l
        · rw [hj]
          exact List.mem_cons_self _ _
        · simp only [hj, if_false] at h
          exact List.mem_cons_of_mem _ (ih j h)
      | remove_torrent i =>
        have hstep : registered_after (l ++ [disk_call.remove_torrent i])
            = (registered_after l).filter fun j => decide (j ≠ i) := by
          simp [registered_after, List.foldl_append]
        rw [hstep]
        simp only [] at h
        by_cases hj : j = i
        · simp [hj] at h
        · simp only [hj, if_false] at h
          exact List.mem_filter.mpr ⟨ih j h, by simpa using hj⟩
      | get_torrent i =>
        have hstep : registered_after (l ++ [disk_call.get_torrent i])
            = registered_after l := by
          simp [registered_after, List.foldl_append]
        rw [hstep]
        exact ih j h
  intro calls
  by_contra hne
  have hmem := key calls _ hne
  exact Nat.lt_irrefl _ (lt_end_index _ _ hmem)

/-- The calls on `d` of a log extended by one call on `d`. -/
theorem calls_on_append_call (d : disk_ptr) (log : List (disk_ptr × disk_call))
    (c : disk_call) :
    calls_on d (log ++ [(d, c)]) = calls_on d log ++ [c] := by
  simp [calls_on, List.filter_append, List.filter_cons]

/-- C13 as stated fails on a registry that issues removed indices again, which the
spec allows (it asks only that an index is not registered when it is issued): with
the allocation one past the largest registered index, the first registration gets
index 0, `get_torrent(0)` is absent after `remove_torrent(0)`, and valid again,
with the record of another registration, after the next `new_torrent`. -/
theorem get_torrent_after_reissue :
    fresh_policy end_index_policy ∧
    ((registry.after end_index_policy []).new_torrent end_index_policy).1 = 0 ∧
    (registry.after end_index_policy [disk_call.new_torrent]).get_torrent 0
      = some ⟨0⟩ ∧
    (registry.after end_index_policy
      [disk_call.new_torrent, disk_call.remove_torrent 0]).get_torrent 0 = none ∧
    (registry.after end_index_policy
      [disk_call.new_torrent, disk_call.remove_torrent 0,
        disk_call.new_torrent]).get_torrent 0 = some ⟨2⟩ :=
  ⟨end_index_policy_fresh, by decide, by decide, by decide, by decide⟩

/-- C13, amended, on the registry modelled from the spec with any allocation that
never issues a registered index: let `idx` be the index the call `new_torrent`
returns after the calls `pre`.  Before that call `get_torrent(idx)` is absent; after
it, and after any further calls `mid` without a `remove_torrent(idx)`, it returns
the record registered by the call; once `remove_torrent(idx)` has been received it
is absent after every further sequence of calls `post` in which no registration is
issued `idx` again; and the destruction or `reset` of an active holder wrapping
`idx` succeeds and is such a removal. -/
theorem get_torrent_lifetime (policy : index_policy) (hfresh : fresh_policy policy)
    (pre mid post : List disk_call) (idx : storage_index_t)
    (hidx : idx = ((registry.after policy pre).new_torrent policy).1) :
    (registry.after policy pre).get_torrent idx = none ∧
    ((∀ c ∈ mid, c ≠ disk_call.remove_torrent idx) →
      (registry.after policy (pre ++ disk_call.new_torrent :: mid)).get_torrent idx
        = some ⟨pre.length⟩) ∧
    ((∀ post1 post2, post = post1 ++ disk_call.new_torrent :: post2 →
        policy (pre ++ disk_call.new_torrent :: mid
          ++ disk_call.remove_torrent idx :: post1) ≠ idx) →
      (registry.after policy (pre ++ disk_call.new_torrent :: mid
        ++ disk_call.remove_torrent idx :: post)).get_torrent idx = none) ∧
    ∀ (w : world) (p : Nat) (d : disk_ptr),
      w.obj p = some ⟨some d, idx⟩ →
      calls_on d w.log = pre ++ disk_call.new_torrent :: mid →
      (∃ w1, dtor p w = some w1 ∧
        calls_on d w1.log = pre ++ disk_call.new_torrent :: mid
          ++ [disk_call.remove_torrent idx] ∧
        (registry.after policy (calls_on d w1.log)).get_torrent idx = none) ∧
      (∃ w1, reset p w = some w1 ∧
        calls_on d w1.log = pre ++ disk_call.new_torrent :: mid
          ++ [disk_call.remove_torrent idx] ∧
        (registry.after policy (calls_on d w1.log)).get_torrent idx = none) := by
  have hpol : idx = policy pre := by
    rw [hidx]
    simp only [registry.new_torrent, received_after]
  have hreg : (registry.after policy (pre ++ [disk_call.new_torrent])).get_torrent idx
      = some ⟨pre.length⟩ := by
    rw [get_torrent_snoc]
    simp only [hpol, if_true]
  have hrem : (registry.after policy (pre ++ disk_call.new_torrent :: mid
      ++ [disk_call.remove_torrent idx])).get_torrent idx = none := by
    rw [get_torrent_snoc]
    simp only [if_true]
  refine ⟨?_, ?_, ?_, ?_⟩
  · rw [hpol]
    exact hfresh pre
  · intro hmid
    have := stays_registered policy hfresh _ idx _ hreg mid hmid
    simpa using this
  · intro hpost
    have := stays_absent policy _ idx hrem post (by
      intro post1 post2 h
      have := hpost post1 post2 h
      simpa using this)
    simpa using this
  · intro w p d hp hcalls
    have hlog : ∀ w1 : world,
        w1.log = w.log ++ [(d, disk_call.remove_torrent idx)] →
        calls_on d w1.log = pre ++ disk_call.new_torrent :: mid
            ++ [disk_call.remove_torrent idx] ∧
          (registry.after policy (calls_on d w1.log)).get_torrent idx = none := by
      intro w1 h1
      have hc : calls_on d w1.log = pre ++ disk_call.new_torrent :: mid
          ++ [disk_call.remove_torrent idx] := by
        rw [h1, calls_on_append_call, hcalls]
      exact ⟨hc, by rw [hc]; exact hrem⟩
    exact ⟨⟨_, dtor_eq hp, hlog _ (by simp [removal_of, world.free])⟩,
      ⟨_, reset_eq hp, hlog _ (by simp [removal_of, world.store])⟩⟩

/-- Witness of the amended C13 with the counter allocation: dispatcher 1 registers
two torrents; the second one gets index 1, is looked up while registered and is
absent after its removal, also after a third registration; the holder handed out
for it removes it when destroyed. -/
theorem get_torrent_lifetime_witness :
    (registry.after counter_policy [disk_call.new_torrent]).get_torrent 1 = none ∧
    (registry.after counter_policy ([disk_call.new_torrent] ++ disk_call.new_torrent ::
        [disk_call.get_torrent 1])).get_torrent 1 = some ⟨1⟩ ∧
    (registry.after counter_policy ([disk_call.new_torrent] ++ disk_call.new_torrent ::
        [disk_call.get_torrent 1]
        ++ disk_call.remove_torrent 1 :: [disk_call.new_torrent])).get_torrent 1 = none ∧
    ∃ w1, dtor 1 ((disk_new_torrent counter_policy 1
          (disk_new_torrent counter_policy 1 {})).call 1 (disk_call.get_torrent 1))
        = some w1 ∧
      calls_on 1 w1.log = [disk_call.new_torrent] ++ disk_call.new_torrent ::
        [disk_call.get_torrent 1] ++ [disk_call.remove_torrent 1] ∧
      (registry.after counter_policy (calls_on 1 w1.log)).get_torrent 1 = none :=
  ⟨(get_torrent_lifetime counter_policy counter_policy_fresh [disk_call.new_torrent]
      [disk_call.get_torrent 1] [disk_call.new_torrent] 1 (by decide)).1,
    (get_torrent_lifetime counter_policy counter_policy_fresh [disk_call.new_torrent]
      [disk_call.get_torrent 1] [disk_call.new_torrent] 1 (by decide)).2.1 (by decide),
    (get_torrent_lifetime counter_policy counter_policy_fresh [disk_call.new_torrent]
      [disk_call.get_torrent 1] [disk_call.new_torrent] 1 (by decide)).2.2.1
      (fun post1 _ _ =>
        counter_policy_never_reissues [disk_call.new_torrent]
          ([disk_call.get_torrent 1] ++ disk_call.remove_torrent 1 :: post1)),
    ((get_torrent_lifetime counter_policy counter_policy_fresh [disk_call.new_torrent]
      [disk_call.get_torrent 1] [disk_call.new_torrent] 1 (by decide)).2.2.2
      ((disk_new_torrent counter_policy 1
          (disk_new_torrent counter_policy 1 {})).call 1 (disk_call.get_torrent 1))
      1 1 (by decide) (by decide)).1⟩

end libtorrent
